import Mathlib

/-!
# ncwtester: the training loop of `main.go`

A shallow embedding of `main.go` (the Morse trainer's command-line loop) and
proofs about it.

* Go strings are byte sequences (`GoString`, every element below 256), runes are
  code points; `[]rune(s)`, `range s` and `string(r)` go through UTF-8 as in Go.
* The outside world is explicit: the random source, the bytes typed on the
  terminal, the wall clock and the result of `cwplayer.New` are inputs, and every
  effect of the program (player call, terminal read, print, log or statistics
  call) is appended to a trace.
* Loops that the source writes as `for { ... }` take a fuel argument; the
  theorems show how much fuel is enough.
-/

namespace NcwTester

/-! ## Strings, runes and UTF-8 -/

/-- A Go string: its bytes, in order. -/
abbrev GoString := List Nat

/-- Rune `utf8.RuneError`, U+FFFD. -/
def runeError : Nat := 0xFFFD

/-- Conversion `string(r)` of one rune: its UTF-8 encoding (`utf8.AppendRune`). -/
def encodeRune (r : Nat) : GoString :=
  if r < 0x80 then [r]
  else if r < 0x800 then [0xC0 + r / 64, 0x80 + r % 64]
  else if 0x10FFFF < r ∨ (0xD800 ≤ r ∧ r ≤ 0xDFFF) then [0xEF, 0xBF, 0xBD]
  else if r < 0x10000 then [0xE0 + r / 4096, 0x80 + r / 64 % 64, 0x80 + r % 64]
  else [0xF0 + r / 262144, 0x80 + r / 4096 % 64, 0x80 + r / 64 % 64, 0x80 + r % 64]

/-- Conversion `string(rs)` of a rune slice. -/
def encodeRunes (rs : List Nat) : GoString := rs.flatMap encodeRune

/-- Size and accepted range of the second byte for a UTF-8 leading byte
(tables `first` and `acceptRanges` of `unicode/utf8`); `none` for a byte that
cannot start a multi-byte sequence. -/
def leadInfo (s0 : Nat) : Option (Nat × Nat × Nat) :=
  if 0xC2 ≤ s0 ∧ s0 ≤ 0xDF then some (2, 0x80, 0xBF)
  else if s0 = 0xE0 then some (3, 0xA0, 0xBF)
  else if (0xE1 ≤ s0 ∧ s0 ≤ 0xEC) ∨ s0 = 0xEE ∨ s0 = 0xEF then some (3, 0x80, 0xBF)
  else if s0 = 0xED then some (3, 0x80, 0x9F)
  else if s0 = 0xF0 then some (4, 0x90, 0xBF)
  else if 0xF1 ≤ s0 ∧ s0 ≤ 0xF3 then some (4, 0x80, 0xBF)
  else if s0 = 0xF4 then some (4, 0x80, 0x8F)
  else none

/-- Function `utf8.DecodeRuneInString`: the first rune of `s` and its width in
bytes; an invalid encoding gives `(RuneError, 1)`. -/
def decodeRune : GoString → Nat × Nat
  | [] => (runeError, 0)
  | s0 :: rest =>
    if s0 < 0x80 then (s0, 1)
    else
      match leadInfo s0 with
      | none => (runeError, 1)
      | some (sz, lo, hi) =>
        if rest.length + 1 < sz then (runeError, 1)
        else
          let s1 := rest.getD 0 0
          let s2 := rest.getD 1 0
          let s3 := rest.getD 2 0
          if s1 < lo ∨ hi < s1 then (runeError, 1)
          else if sz ≤ 2 then (s0 % 32 * 64 + s1 % 64, 2)
          else if s2 < 0x80 ∨ 0xBF < s2 then (runeError, 1)
          else if sz ≤ 3 then (s0 % 16 * 4096 + s1 % 64 * 64 + s2 % 64, 3)
          else if s3 < 0x80 ∨ 0xBF < s3 then (runeError, 1)
          else (s0 % 8 * 262144 + s1 % 64 * 4096 + s2 % 64 * 64 + s3 % 64, 4)

/-- Worker of `rangeString`: decode from byte offset `i`, at most `n` runes. -/
def rangeFrom : Nat → Nat → GoString → List (Nat × Nat)
  | 0, _, _ => []
  | n + 1, i, s =>
    match s with
    | [] => []
    | _ :: _ =>
      let d := decodeRune s
      (i, d.1) :: rangeFrom n (i + d.2) (s.drop d.2)

/-- The pairs `(i, r)` that `for i, r := range s` goes through: byte offset and
rune. Every step consumes at least one byte, so `s.length` steps are enough. -/
def rangeString (s : GoString) : List (Nat × Nat) := rangeFrom s.length 0 s

/-- Conversion `[]rune(s)`. -/
def toRunes (s : GoString) : List Nat := (rangeString s).map Prod.snd

/-- The bytes of a string literal. -/
def str (s : String) : GoString := s.toList.flatMap (fun c => encodeRune c.toNat)

/-- All bytes of the string are ASCII (below 0x80). -/
def IsASCII (s : GoString) : Prop := ∀ b ∈ s, b < 0x80

instance (s : GoString) : Decidable (IsASCII s) := by
  unfold IsASCII; infer_instance

/-- Function `unicode.ToLower` on the runes `getChar` can pass to it, the
Latin-1 range `0 .. 0xFF`: ASCII capitals, and in the upper half the case ranges
U+00C0..U+00D6 and U+00D8..U+00DE, move by 32. -/
def unicodeToLower (r : Nat) : Nat :=
  if r ≤ 0x7F then
    if 0x41 ≤ r ∧ r ≤ 0x5A then r + (0x61 - 0x41) else r
  else if (0xC0 ≤ r ∧ r ≤ 0xD6) ∨ (0xD8 ≤ r ∧ r ≤ 0xDE) then r + 32
  else r

/-! ## Flags and constants (`main.go` lines 18-32) -/

/-- The command-line flags. -/
structure Flags where
  sampleRate : Int
  wpm : Float
  frequency : Float
  logFile : GoString
  timeCutoff : Int
  letters : GoString
  group : Int

/-- The flags' default values. -/
def defaultFlags : Flags where
  sampleRate := 44100
  wpm := 25.0
  frequency := 600.0
  logFile := str "ncwtesterstats.csv"
  timeCutoff := 0
  letters := str "abcdefghijklmnopqrstuvwxyz0123456789.=/,?"
  group := 1

def channelNum : Int := 2
def bitDepthInBytes : Int := 2
def maxSampleValue : Int := 32767

/-- Type `cwgenerator.Options`, with the fields `run` fills in. -/
structure Options where
  WPM : Float
  Frequency : Float
  SampleRate : Int
  ChannelNum : Int
  BitDepthInBytes : Int
  MaxSampleValue : Int

/-- Returns whether the character is an exit character, eg CTRL-C or ESC. -/
def isExit (r : Nat) : Bool := r == 0x03 || r == 0x1B

/-- Convert a duration (nanoseconds) into milliseconds: `t.Milliseconds()`. -/
def ms (t : Int) : Int := Int.tdiv t 1000000

/-! ## The outside world -/

/-- A Go error value: a message, possibly wrapping another error. -/
inductive GoError where
  | plain (msg : GoString)
  | wrapping (msg : GoString) (inner : GoError)
  deriving DecidableEq

/-- The text of an error, `err.Error()`. -/
def GoError.text : GoError → GoString
  | .plain m => m
  | .wrapping m _ => m

/-- Call `fmt.Errorf(format + ": %w", err)` for a format without other verbs:
the text is the format's text followed by the text of `err`, which it wraps. -/
def errorfW (format : GoString) (err : GoError) : GoError :=
  .wrapping (format ++ err.text) err

/-- The three statistics collectors `run` creates with `NewStats()`. -/
inductive StatsId where
  | session
  | round
  | final
  deriving DecidableEq

/-- The text `yorn` is asked to print, `fmt.Sprintf("Start test round with %d
letters and %d groups?", nLetters, nGroups)`, kept as its two arguments. -/
structure Prompt where
  nLetters : Nat
  nGroups : Int
  deriving DecidableEq

/-- One effect of the program on the outside world. -/
inductive Event where
  /-- Call `cwplayer.New(opt)`. -/
  | cwNew (opt : Options)
  /-- Call `NewCSVLog(file)`. -/
  | newCSVLog (file : GoString)
  /-- Call `NewStats()`. -/
  | newStats (id : StatsId)
  /-- Output `fmt.Printf("%s (y/n)> ", prompt)`. -/
  | printPrompt (p : Prompt)
  /-- One byte read from the terminal in raw mode, inside `getChar`. -/
  | termRead (b : Nat)
  /-- A failing `log.Fatalf` of `getChar`. -/
  | logFatal
  /-- Output `fmt.Println("...bye\n")`. -/
  | printBye
  /-- Output `fmt.Println(string(c))`. -/
  | printAnswer (c : Nat)
  | cwReset
  | cwClear
  | cwRune (r : Nat)
  | cwString (s : GoString)
  | cwSyncPlay
  /-- Output `fmt.Printf("%2d/%2d: %c: reaction time %5dms: ", i+1, n, tx, millis)`. -/
  | printAttempt (i n tx : Nat) (millis : Int)
  /-- Output `color.Green("OK\n")`. -/
  | printOK
  /-- Output `color.Red(fmt.Sprintf("BAD %c\n", rx))`. -/
  | printBad (rx : Nat)
  /-- Call `csvLog.Add(tx, rx, reactionTime)`. -/
  | csvAdd (tx rx : Nat) (reactionTime : Int)
  /-- Call `stats.Add(string(tx), string(rx), reactionTime.Seconds())`; the
  duration is kept in nanoseconds. -/
  | statsAdd (id : StatsId) (tx rx : GoString) (reactionTime : Int)
  /-- Output `fmt.Println(line)`. -/
  | printLine (line : GoString)
  /-- Call `stats.TotalSummary()`. -/
  | totalSummary (id : StatsId)
  /-- Call `stats.Load(file, cutoff)`. -/
  | statsLoad (file : GoString) (cutoff : Int)
  /-- Call `stats.Summary()`. -/
  | summary (id : StatsId)

/-- Ways the process stops without `run` returning. -/
inductive Halt where
  /-- Call `os.Exit(code)`, directly or through `log.Fatalf`. -/
  | osExit (code : Nat)
  /-- A run-time panic (division by zero, index out of range, `rand.Intn(0)`). -/
  | panic
  /-- A loop used up its fuel. -/
  | outOfFuel
  deriving DecidableEq

/-- The world `run` acts on.
* `rand k` is the `k`-th outcome of the random source, read modulo the bound;
* `clock k` is the wall-clock time (ns) at which `k` effects have completed;
* `drawn` counts the random outcomes used so far;
* `stdin` are the bytes still to be typed, a read after the last one fails;
* `trace` are the effects so far, oldest first. -/
structure World where
  rand : Nat → Nat
  clock : Nat → Nat
  drawn : Nat
  stdin : List Nat
  trace : List Event

/-- Result of a piece of the program: a value, or the process stopped. -/
inductive Res (α : Type) where
  | ok (a : α) (w : World)
  | halt (h : Halt) (w : World)

/-- The world a result leaves behind. -/
def Res.world {α : Type} : Res α → World
  | .ok _ w => w
  | .halt _ w => w

/-- The value of a result, if there is one. -/
def Res.value {α : Type} : Res α → Option α
  | .ok a _ => some a
  | .halt _ _ => none

/-- Perform one effect. -/
def emit (e : Event) (w : World) : World := { w with trace := w.trace ++ [e] }

/-- Reading of the clock, `time.Now()`: the time at which the effects so far
have completed. -/
def now (w : World) : Nat := w.clock w.trace.length

/-- Call `rand.Intn(n)` for `n > 0`. -/
def intn (n : Nat) (w : World) : Nat × World :=
  (w.rand w.drawn % n, { w with drawn := w.drawn + 1 })

/-! ## `shuffleString`, `getChar`, `yorn` -/

/-- The swap function handed to `rand.Shuffle`: `rs[i], rs[j] = rs[j], rs[i]`. -/
def swap (rs : List Nat) (i j : Nat) : List Nat :=
  (rs.set i (rs.getD j 0)).set j (rs.getD i 0)

/-- Loop of `rand.Shuffle`: `for i := n - 1; i > 0; i-- { j := Intn(i + 1);
swap(i, j) }`, entered with the loop variable equal to the first argument. -/
def shuffleFrom : Nat → List Nat → World → List Nat × World
  | 0, rs, w => (rs, w)
  | i + 1, rs, w =>
    let d := intn (i + 2) w
    shuffleFrom i (swap rs (i + 1) d.1) d.2

/-- Call `rand.Shuffle(len(rs), swap)`. -/
def randShuffle (rs : List Nat) (w : World) : List Nat × World :=
  shuffleFrom (rs.length - 1) rs w

def shuffleString (s : GoString) (w : World) : GoString × World :=
  let d := randShuffle (toRunes s) w
  (encodeRunes d.1, d.2)

/-- Reads a single character from the terminal. A failure of `MakeRaw`, `Read`
or `Restore` ends the process through `log.Fatalf`; the world decides it by
having no byte left. -/
def getChar (w : World) : Res Nat :=
  match w.stdin with
  | [] => .halt (.osExit 1) (emit .logFatal w)
  | b :: rest => .ok (unicodeToLower b) (emit (.termRead b) { w with stdin := rest })

/-- The `for` loop of `yorn`. -/
def yornLoop : Nat → World → Res Nat
  | 0, w => .halt .outOfFuel w
  | n + 1, w =>
    match getChar w with
    | .halt h w1 => .halt h w1
    | .ok c w1 =>
      if c = 0x79 ∨ c = 0x6E then .ok c w1
      else if isExit c then .halt (.osExit 0) (emit .printBye w1)
      else yornLoop n w1

def yorn (n : Nat) (prompt : Prompt) (w : World) : Res Bool :=
  match yornLoop n (emit (.printPrompt prompt) w) with
  | .halt h w1 => .halt h w1
  | .ok c w1 => .ok (c == 0x79) (emit (.printAnswer c) w1)

/-! ## `run` -/

/-- Lines 111-114, the loop "Bulk up the letters", entered with `testLetters = t`. -/
def bulkLoop : Nat → GoString → GoString → World → Res GoString
  | 0, _, _, w => .halt .outOfFuel w
  | n + 1, letters, t, w =>
    if t.length + letters.length ≤ 50 then
      let d := shuffleString letters w
      bulkLoop n letters (t ++ d.1) d.2
    else .ok t w

/-- Lines 116-122, the loop "Make sure they are an whole number of groups". -/
def padLoop : Nat → GoString → Int → GoString → World → Res GoString
  | 0, _, _, _, w => .halt .outOfFuel w
  | n + 1, letters, group, t, w =>
    if group = 0 then .halt .panic w
    else if Int.tmod t.length group = 0 then .ok t w
    else if letters.length = 0 then .halt .panic w
    else
      let d := intn letters.length w
      padLoop n letters group (t ++ encodeRune (letters.getD d.1 0)) d.2

/-- Lines 111-114: "Bulk up the letters". -/
def bulkLetters (n : Nat) (letters : GoString) (w : World) : Res GoString :=
  let d := shuffleString letters w
  bulkLoop n letters d.1 d.2

/-- Lines 111-122: the letters of one round. -/
def prepareLetters (n : Nat) (letters : GoString) (group : Int) (w : World) :
    Res GoString :=
  match bulkLetters n letters w with
  | .halt h w1 => .halt h w1
  | .ok t w1 => padLoop n letters group t w1

/-- Lines 139-141: `for j := i; j < i+group; j++ { cw.Rune(rune(testLetters[j])) }`,
over the remaining values of `j`. -/
def sendRunes (testLetters : GoString) : List Nat → World → Res Unit
  | [], w => .ok () w
  | j :: js, w =>
    match testLetters[j]? with
    | none => .halt .panic w
    | some b => sendRunes testLetters js (emit (.cwRune b) w)

/-- Lines 136-144: send all the letters at the start of the group. -/
def sendGroup (group : Int) (testLetters : GoString) (i : Nat) (w : World) : Res Unit :=
  let w1 := emit .cwReset w
  let w2 := emit .cwClear w1
  let w3 := emit (.cwRune 0x20) w2
  match sendRunes testLetters ((List.range group.toNat).map (i + ·)) w3 with
  | .halt h w4 => .halt h w4
  | .ok _ w4 => .ok () (emit .cwSyncPlay w4)

/-- How an iteration of a loop ends. -/
inductive Flow where
  | next
  | breakOuter
  deriving DecidableEq

/-- Lines 134-163: the body of `for i, tx := range testLetters`. -/
def letterBody (group : Int) (testLetters : GoString) (i tx : Nat) (w : World) :
    Res Flow :=
  if group = 0 then .halt .panic w
  else
    match (if Int.tmod i group = 0 then sendGroup group testLetters i w else .ok () w) with
    | .halt h w1 => .halt h w1
    | .ok _ w1 =>
      let finishedPlaying := now w1
      match getChar w1 with
      | .halt h w2 => .halt h w2
      | .ok rx w2 =>
        if isExit rx then .ok .breakOuter w2
        else
          let reactionTime : Int := (now w2 : Int) - finishedPlaying
          let ok := rx == tx
          let w3 := emit (.printAttempt (i + 1) testLetters.length tx (ms reactionTime)) w2
          let w4 := emit (if ok then .printOK else .printBad rx) w3
          let w5 := emit (.csvAdd tx rx reactionTime) w4
          let w6 := emit (.statsAdd .round (encodeRune tx) (encodeRune rx) reactionTime) w5
          let w7 := emit (.statsAdd .session (encodeRune tx) (encodeRune rx) reactionTime) w6
          .ok .next w7

/-- Lines 133-164: the loop `for i, tx := range testLetters` over the remaining
pairs. -/
def letterLoop (group : Int) (testLetters : GoString) : List (Nat × Nat) → World → Res Flow
  | [], w => .ok .next w
  | (i, tx) :: rest, w =>
    match letterBody group testLetters i tx w with
    | .halt h w1 => .halt h w1
    | .ok .breakOuter w1 => .ok .breakOuter w1
    | .ok .next w1 => letterLoop group testLetters rest w1

/-- Lines 127-164: an accepted round. -/
def playRound (group : Int) (testLetters : GoString) (w : World) : Res Flow :=
  let w1 := emit .cwReset w
  let w2 := emit (.cwString (str " vvv   ")) w1
  let w3 := emit .cwSyncPlay w2
  let w4 := emit (.newStats .round) w3
  letterLoop group testLetters (rangeString testLetters) w4

/-- Lines 110-167: one iteration of the loop labelled `outer`. -/
def roundIter (n : Nat) (f : Flags) (w : World) : Res Flow :=
  match prepareLetters n f.letters f.group w with
  | .halt h w1 => .halt h w1
  | .ok testLetters w1 =>
    match yorn n ⟨testLetters.length, Int.tdiv testLetters.length f.group⟩ w1 with
    | .halt h w2 => .halt h w2
    | .ok false w2 => .ok .breakOuter w2
    | .ok true w2 =>
      match playRound f.group testLetters w2 with
      | .halt h w3 => .halt h w3
      | .ok .breakOuter w3 => .ok .breakOuter w3
      | .ok .next w3 =>
        let w4 := emit (.printLine (str "Round stats")) w3
        .ok .next (emit (.totalSummary .round) w4)

/-- Lines 108-168: the loop labelled `outer`; `n` is the fuel of the inner
loops, the first argument the fuel of this one. -/
def outerLoop (n : Nat) : Nat → Flags → World → Res Unit
  | 0, _, w => .halt .outOfFuel w
  | k + 1, f, w =>
    match roundIter n f w with
    | .halt h w1 => .halt h w1
    | .ok .breakOuter w1 => .ok () w1
    | .ok .next w1 => outerLoop n k f w1

/-- How `run` ends: it returns an error or nil, or the process stops. -/
inductive Outcome where
  | returned (err : Option GoError)
  | halted (h : Halt)
  deriving DecidableEq

/-- Lines 92-99: the options `run` builds from the flags. -/
def runOptions (f : Flags) : Options where
  WPM := f.wpm
  Frequency := f.frequency
  SampleRate := f.sampleRate
  ChannelNum := channelNum
  BitDepthInBytes := bitDepthInBytes
  MaxSampleValue := maxSampleValue

/-- Function `run`; `newResult` is the error `cwplayer.New` returns, if any. -/
def run (n : Nat) (f : Flags) (newResult : Option GoError) (w : World) :
    Outcome × World :=
  let opt := runOptions f
  let w1 := emit (.cwNew opt) w
  match newResult with
  | some err => (.returned (some (errorfW (str "failed to make cw generator: ") err)), w1)
  | none =>
    let w2 := emit (.newCSVLog f.logFile) w1
    let w3 := emit (.newStats .session) w2
    match outerLoop n n f w3 with
    | .halt h w4 => (.halted h, w4)
    | .ok _ w4 =>
      let w5 := emit (.printLine (str "Session stats")) w4
      let w6 := emit (.totalSummary .session) w5
      let w7 := emit (.newStats .final) w6
      let w8 := emit (.statsLoad f.logFile f.timeCutoff) w7
      (.returned none, emit (.summary .final) w8)

/-! ## Observations on worlds and traces -/

/-- World `w2` is `w1` after some more effects. -/
def TraceGrows (w1 w2 : World) : Prop := ∃ es, w2.trace = w1.trace ++ es

/-- A world for examples: the `k`-th random outcome is `7 * k + 3`, every effect
takes one millisecond, nothing has happened yet and `keys` will be typed. -/
def sampleWorld (keys : List Nat) : World where
  rand := fun k => 7 * k + 3
  clock := fun k => 1000000 * k
  drawn := 0
  stdin := keys
  trace := []

/-- The effects of `sendGroup` for the group that starts at byte `i`. -/
def groupEvents (g : Nat) (t : GoString) (i : Nat) : List Event :=
  [.cwReset, .cwClear, .cwRune 0x20] ++
    (List.range g).map (fun p => Event.cwRune (t.getD (i + p) 0)) ++ [.cwSyncPlay]

/-- The effects of one iteration of the letter loop before its `getChar`. -/
def preEvents (g : Nat) (t : GoString) (i : Nat) : List Event :=
  if i % g = 0 then groupEvents g t i else []

/-- The effects of one iteration of the letter loop after a response `rx` that is
not an exit character, when `pos` effects had completed before its `getChar`. -/
def recordEvents (clock : Nat → Nat) (n i tx rx pos : Nat) : List Event :=
  let reactionTime : Int := (clock (pos + 1) : Int) - clock pos
  [.printAttempt (i + 1) n tx (ms reactionTime),
    if rx == tx then .printOK else .printBad rx,
    .csvAdd tx rx reactionTime,
    .statsAdd .round (encodeRune tx) (encodeRune rx) reactionTime,
    .statsAdd .session (encodeRune tx) (encodeRune rx) reactionTime]

/-- The typed byte is not an exit character once `getChar` has lowered it. -/
def keeps (b : Nat) : Bool := !isExit (unicodeToLower b)

/-- The world in which the letter loop of a round starts: lines 127-131 have
run from `w`. -/
def roundStart (w : World) : World :=
  emit (.newStats .round)
    (emit .cwSyncPlay (emit (.cwString (str " vvv   ")) (emit .cwReset w)))

/-- The world in which the loop `outer` starts: lines 92-106 have run from `w`
and `cwplayer.New` has succeeded. -/
def runStart (f : Flags) (w : World) : World :=
  emit (.newStats .session) (emit (.newCSVLog f.logFile) (emit (.cwNew (runOptions f)) w))

/-- The world after `j` iterations of the loop `outer` that each ran to the end
of the round, if that is how they went. -/
def afterRounds (n : Nat) (f : Flags) : Nat → World → Option World
  | 0, w => some w
  | j + 1, w =>
    match roundIter n f w with
    | .ok .next w1 => afterRounds n f j w1
    | _ => none

/-- A call on the player. -/
inductive PlayerCall where
  | reset
  | clear
  | rune (r : Nat)
  | string (s : GoString)
  | syncPlay
  deriving DecidableEq

/-- The player call an effect is, if it is one. -/
def Event.playerCall : Event → Option PlayerCall
  | .cwReset => some .reset
  | .cwClear => some .clear
  | .cwRune r => some (.rune r)
  | .cwString s => some (.string s)
  | .cwSyncPlay => some .syncPlay
  | _ => none

/-- The player calls among some effects, in order. -/
def playerCalls (es : List Event) : List PlayerCall := es.filterMap Event.playerCall

/-- The letters of group `k`: `testLetters[k*g], ..., testLetters[k*g + g - 1]`. -/
def groupLetters (g : Nat) (t : GoString) (k : Nat) : List Nat :=
  (List.range g).map (fun p => t.getD (k * g + p) 0)

/-- The calls for group `k`: Reset, Clear, Rune(' '), the group's letters, SyncPlay. -/
def groupCalls (g : Nat) (t : GoString) (k : Nat) : List PlayerCall :=
  [.reset, .clear, .rune 0x20] ++ (groupLetters g t k).map PlayerCall.rune ++ [.syncPlay]

/-- The calls of a whole round: Reset, String(" vvv   "), SyncPlay, then the
groups `0 .. len(testLetters)/g - 1` in order. -/
def roundCalls (g : Nat) (t : GoString) : List PlayerCall :=
  [.reset, .string (str " vvv   "), .syncPlay] ++
    (List.range (t.length / g)).flatMap (groupCalls g t)

/-- Modelled from the spec: the queue of the player (package `cwplayer`, not in
`main.go`). The state is the queued runes and the batches played so far: `Reset`
and `Clear` empty the queue, `Rune` and `String` append to it, `SyncPlay` plays
the queue. The spec has `SyncPlay` consume the queue; `consume = false` is a
player that keeps it. -/
def playerStep (consume : Bool) (st : List Nat × List (List Nat)) :
    PlayerCall → List Nat × List (List Nat)
  | .reset => ([], st.2)
  | .clear => ([], st.2)
  | .rune r => (st.1 ++ [r], st.2)
  | .string s => (st.1 ++ toRunes s, st.2)
  | .syncPlay => (if consume then [] else st.1, st.2 ++ [st.1])

/-- What each `SyncPlay` of a sequence of calls plays, from an empty queue. -/
def played (consume : Bool) (calls : List PlayerCall) : List (List Nat) :=
  (calls.foldl (playerStep consume) ([], [])).2

/-- What a trace says about one record of the CSV log. Positions count
completed effects, so `clock` of a position is the time it was reached. -/
structure Timing where
  /-- Position at which the latest `SyncPlay` before the record returned. -/
  playEnd : Nat
  /-- Number of terminal reads between that return and the record. -/
  readsSincePlay : Nat
  /-- Position at which the latest terminal read before the record returned. -/
  readEnd : Nat
  /-- The reaction time handed to `csvLog.Add`. -/
  reactionTime : Int
  deriving DecidableEq

/-- State of the walk along a trace: the current position, where the latest
`SyncPlay` returned, the terminal reads since, where the latest read returned. -/
structure AuditState where
  pos : Nat
  playEnd : Nat
  reads : Nat
  readEnd : Nat

/-- One step of the walk: a `SyncPlay` and a terminal read are noted, a
`csvLog.Add` yields a `Timing`. -/
def auditStep (s : AuditState) : Event → AuditState × List Timing
  | .cwSyncPlay => ({ s with pos := s.pos + 1, playEnd := s.pos + 1, reads := 0 }, [])
  | .termRead _ => ({ s with pos := s.pos + 1, reads := s.reads + 1, readEnd := s.pos + 1 }, [])
  | .csvAdd _ _ rt => ({ s with pos := s.pos + 1 }, [⟨s.playEnd, s.reads, s.readEnd, rt⟩])
  | _ => ({ s with pos := s.pos + 1 }, [])

/-- The walk along some effects. -/
def auditFrom (s : AuditState) : List Event → AuditState × List Timing
  | [] => (s, [])
  | e :: es =>
    let r := auditStep s e
    let r2 := auditFrom r.1 es
    (r2.1, r.2 ++ r2.2)

/-- The timings of all records of a trace. -/
def audit (tr : List Event) : List Timing := (auditFrom ⟨0, 0, 0, 0⟩ tr).2

/-- A record is timed from the playback of its letter: the reaction time is the
time from the return of the latest `SyncPlay` to the return of the letter's
read, and that read is the only one since the `SyncPlay`. -/
def TimedFromPlayback (clock : Nat → Nat) (x : Timing) : Prop :=
  x.reactionTime = (clock x.readEnd : Int) - clock x.playEnd ∧ x.readsSincePlay = 1

instance (clock : Nat → Nat) (x : Timing) : Decidable (TimedFromPlayback clock x) := by
  unfold TimedFromPlayback; infer_instance

/-- A record of the letter at index `i` is timed over its own read: the reaction
time is the time the read took, the read is number `i % g + 1` since the latest
`SyncPlay`, which returned `6 * (i % g)` effects before the read began. -/
def TimedOverRead (clock : Nat → Nat) (g i : Nat) (x : Timing) : Prop :=
  x.reactionTime = (clock x.readEnd : Int) - clock (x.readEnd - 1) ∧
    x.readsSincePlay = i % g + 1 ∧ x.readEnd = x.playEnd + 6 * (i % g) + 1

/-- A record of the letter at loop index `i` (its byte offset) is timed over its
own read: the reaction time is the time the read took; with `r` terminal reads
since the latest `SyncPlay`, this read included, that `SyncPlay` returned
`6 * (r - 1)` effects before the read began; and `r = 1` exactly when the
iteration sent a group, that is when `i` is a multiple of `g`. -/
def TimedOwnRead (clock : Nat → Nat) (g i : Nat) (x : Timing) : Prop :=
  x.reactionTime = (clock x.readEnd : Int) - clock (x.readEnd - 1) ∧
    1 ≤ x.readsSincePlay ∧ x.readEnd = x.playEnd + 6 * (x.readsSincePlay - 1) + 1 ∧
    (i % g = 0 ↔ x.readsSincePlay = 1)

/-! ## Basic facts: ASCII strings -/

theorem encodeRune_of_lt {r : Nat} (h : r < 0x80) : encodeRune r = [r] := by
  simp [encodeRune, h]

theorem decodeRune_cons_of_lt {b : Nat} (t : GoString) (h : b < 0x80) :
    decodeRune (b :: t) = (b, 1) := by
  simp [decodeRune, h]

theorem IsASCII.tail {b : Nat} {s : GoString} (h : IsASCII (b :: s)) : IsASCII s :=
  fun c hc => h c (List.mem_cons_of_mem _ hc)

theorem IsASCII.head {b : Nat} {s : GoString} (h : IsASCII (b :: s)) : b < 0x80 :=
  h b (List.mem_cons_self _ _)

theorem IsASCII.append {s t : GoString} (hs : IsASCII s) (ht : IsASCII t) :
    IsASCII (s ++ t) := by
  intro b hb
  rcases List.mem_append.mp hb with h | h
  · exact hs b h
  · exact ht b h

theorem IsASCII.of_perm {s t : GoString} (h : s.Perm t) (ht : IsASCII t) : IsASCII s :=
  fun b hb => ht b (h.subset hb)

theorem rangeFrom_ascii (n : Nat) : ∀ (i : Nat) (s : GoString), IsASCII s → s.length ≤ n →
    rangeFrom n i s = s.enumFrom i := by
  induction n with
  | zero =>
    intro i s _ hn
    have : s = [] := List.length_eq_zero.mp (Nat.le_zero.mp hn)
    subst this
    rfl
  | succ n ih =>
    intro i s hs hn
    cases s with
    | nil => rfl
    | cons b t =>
      have hb := hs.head
      simp only [rangeFrom, decodeRune_cons_of_lt t hb, List.drop_succ_cons, List.drop_zero,
        List.enumFrom_cons]
      rw [ih (i + 1) t hs.tail (by simpa using hn)]

theorem rangeString_ascii {s : GoString} (hs : IsASCII s) : rangeString s = s.enumFrom 0 :=
  rangeFrom_ascii s.length 0 s hs (Nat.le_refl _)

theorem map_snd_enumFrom (s : GoString) : ∀ i : Nat, (s.enumFrom i).map Prod.snd = s := by
  induction s with
  | nil => intro i; rfl
  | cons b t ih => intro i; simp [List.enumFrom_cons, ih]

theorem toRunes_ascii {s : GoString} (hs : IsASCII s) : toRunes s = s := by
  rw [toRunes, rangeString_ascii hs, map_snd_enumFrom]

theorem encodeRunes_ascii {rs : List Nat} (hs : IsASCII rs) : encodeRunes rs = rs := by
  induction rs with
  | nil => rfl
  | cons b t ih =>
    simp only [encodeRunes, List.flatMap_cons, encodeRune_of_lt hs.head]
    have := ih hs.tail
    simp only [encodeRunes] at this
    rw [this]
    rfl

/-! ## Basic facts: the shuffle -/

theorem swap_length (rs : List Nat) (i j : Nat) : (swap rs i j).length = rs.length := by
  simp [swap]

theorem swap_perm {rs : List Nat} {i j : Nat} (hi : i < rs.length) (hj : j < rs.length) :
    (swap rs i j).Perm rs := by
  rw [List.perm_iff_count]
  intro b
  have hj1 : j < (rs.set i (rs.getD j 0)).length := by simpa using hj
  have e1 : (rs.set i (rs.getD j 0))[j] = rs[j] := by
    rw [List.getElem_set]
    split
    · next h => subst h; exact List.getD_eq_getElem _ _ hj
    · rfl
  have hpos : (if rs[i] == b then 1 else 0) ≤ rs.count b := by
    split
    · next h =>
      have hb : rs[i] = b := by simpa using h
      have : b ∈ rs := hb ▸ List.getElem_mem hi
      exact List.count_pos_iff.mpr this
    · exact Nat.zero_le _
  rw [swap, List.count_set _ _ _ _ hj1, List.count_set _ _ _ _ hi, e1,
    List.getD_eq_getElem _ _ hj, List.getD_eq_getElem _ _ hi]
  omega

theorem shuffleFrom_spec : ∀ (i : Nat) (rs : List Nat) (w : World), i ≤ rs.length - 1 →
    (shuffleFrom i rs w).1.Perm rs ∧
      (shuffleFrom i rs w).2 = { w with drawn := w.drawn + i } := by
  intro i
  induction i with
  | zero => intro rs w _; exact ⟨List.Perm.refl _, rfl⟩
  | succ i ih =>
    intro rs w hi
    have hj : w.rand w.drawn % (i + 2) < rs.length :=
      lt_of_lt_of_le (Nat.mod_lt _ (by omega)) (by omega)
    have hlen := swap_length rs (i + 1) (w.rand w.drawn % (i + 2))
    obtain ⟨h1, h2⟩ := ih (swap rs (i + 1) (w.rand w.drawn % (i + 2)))
      { w with drawn := w.drawn + 1 } (by omega)
    refine ⟨?_, ?_⟩
    · exact h1.trans (swap_perm (by omega) hj)
    · simp only [shuffleFrom, intn]
      rw [h2]
      simp only [World.mk.injEq, true_and, and_true]
      omega

theorem shuffleString_spec {s : GoString} (hs : IsASCII s) (w : World) :
    (shuffleString s w).1.Perm s ∧
      (shuffleString s w).2 = { w with drawn := w.drawn + (s.length - 1) } := by
  have h := shuffleFrom_spec (s.length - 1) s w (Nat.le_refl _)
  simp only [shuffleString, randShuffle, toRunes_ascii hs]
  refine ⟨?_, h.2⟩
  rw [encodeRunes_ascii (IsASCII.of_perm h.1 hs)]
  exact h.1

/-! ## The letters of a round -/

theorem flatten_perms_length {letters : GoString} :
    ∀ ps : List GoString, (∀ p ∈ ps, p.Perm letters) →
      ps.flatten.length = ps.length * letters.length := by
  intro ps
  induction ps with
  | nil => intro _; simp
  | cons p ps ih =>
    intro h
    have hp : p.length = letters.length := (h p (List.mem_cons_self _ _)).length_eq
    have := ih (fun q hq => h q (List.mem_cons_of_mem _ hq))
    simp only [List.flatten_cons, List.length_append, List.length_cons, this, hp]
    rw [Nat.succ_mul, Nat.add_comm]

theorem flatten_perms_count {letters : GoString} (c : Nat) :
    ∀ ps : List GoString, (∀ p ∈ ps, p.Perm letters) →
      ps.flatten.count c = ps.length * letters.count c := by
  intro ps
  induction ps with
  | nil => intro _; simp
  | cons p ps ih =>
    intro h
    have hp : p.count c = letters.count c := (h p (List.mem_cons_self _ _)).count_eq c
    have := ih (fun q hq => h q (List.mem_cons_of_mem _ hq))
    simp only [List.flatten_cons, List.count_append, List.length_cons, this, hp]
    rw [Nat.succ_mul, Nat.add_comm]

theorem flatten_perms_ascii {letters : GoString} (ha : IsASCII letters) :
    ∀ ps : List GoString, (∀ p ∈ ps, p.Perm letters) → IsASCII ps.flatten := by
  intro ps h b hb
  obtain ⟨p, hp, hbp⟩ := List.mem_flatten.mp hb
  exact ha b ((h p hp).subset hbp)

theorem bulkLoop_spec {letters : GoString} (hl : letters ≠ []) (ha : IsASCII letters) :
    ∀ (n : Nat) (ps : List GoString) (w : World),
      (∀ p ∈ ps, p.Perm letters) → 1 ≤ ps.length →
      ps.length ≤ max 1 (50 / letters.length) →
      max 1 (50 / letters.length) - ps.length < n →
      ∃ (qs : List GoString) (d : Nat),
        bulkLoop n letters ps.flatten w = .ok qs.flatten { w with drawn := d } ∧
        (∀ p ∈ qs, p.Perm letters) ∧ qs.length = max 1 (50 / letters.length) := by
  have hL : 0 < letters.length := List.length_pos.mpr hl
  intro n
  induction n with
  | zero => intro ps w _ _ _ hn; exact absurd hn (Nat.not_lt_zero _)
  | succ n ih =>
    intro ps w hps h1 hle hn
    have hlen := flatten_perms_length ps hps
    by_cases hc : ps.flatten.length + letters.length ≤ 50
    · have hs := shuffleString_spec ha w
      have hdiv : ps.length + 1 ≤ 50 / letters.length := by
        rw [Nat.le_div_iff_mul_le hL, Nat.succ_mul, ← hlen]
        exact hc
      have hps2 : ∀ p ∈ ps ++ [(shuffleString letters w).1], p.Perm letters := by
        intro p hp
        rcases List.mem_append.mp hp with h | h
        · exact hps p h
        · rw [List.mem_singleton.mp h]; exact hs.1
      obtain ⟨qs, d, e, hq, hqlen⟩ := ih (ps ++ [(shuffleString letters w).1])
        (shuffleString letters w).2 hps2 (by simp) (by simp; omega) (by simp; omega)
      refine ⟨qs, d, ?_, hq, hqlen⟩
      rw [bulkLoop, if_pos hc]
      simp only [List.flatten_append, List.flatten_cons, List.flatten_nil,
        List.append_nil] at e
      rw [e, hs.2]
    · refine ⟨ps, w.drawn, ?_, hps, ?_⟩
      · rw [bulkLoop, if_neg hc]
      · have hdiv : ¬ ps.length + 1 ≤ 50 / letters.length := by
          rw [Nat.le_div_iff_mul_le hL, Nat.succ_mul, ← hlen]
          exact hc
        omega

theorem bulkLetters_spec {letters : GoString} (hl : letters ≠ []) (ha : IsASCII letters)
    {n : Nat} (hn : 50 ≤ n) (w : World) :
    ∃ (qs : List GoString) (d : Nat),
      bulkLetters n letters w = .ok qs.flatten { w with drawn := d } ∧
      (∀ p ∈ qs, p.Perm letters) ∧ qs.length = max 1 (50 / letters.length) := by
  have hs := shuffleString_spec ha w
  have hdiv : 50 / letters.length ≤ 50 := Nat.div_le_self _ _
  obtain ⟨qs, d, e, hq, hqlen⟩ := bulkLoop_spec hl ha n [(shuffleString letters w).1]
    (shuffleString letters w).2 (by intro p hp; rw [List.mem_singleton.mp hp]; exact hs.1)
    (by simp) (by simp) (by simp only [List.length_singleton]; omega)
  refine ⟨qs, d, ?_, hq, hqlen⟩
  simp only [List.flatten_cons, List.flatten_nil, List.append_nil] at e
  rw [bulkLetters, e, hs.2]

theorem tmod_natCast_eq_zero (a g : Nat) : Int.tmod (a : Int) (g : Int) = 0 ↔ a % g = 0 := by
  rw [← Int.ofNat_tmod]
  exact Int.natCast_eq_zero

theorem padLoop_spec {letters : GoString} (hl : letters ≠ []) (ha : IsASCII letters)
    {g : Nat} (hg : 1 ≤ g) :
    ∀ (n : Nat) (t : GoString) (w : World) (K : Nat),
      K % g = 0 → t.length ≤ K → K < t.length + g → K - t.length < n →
      ∃ (extra : GoString) (d : Nat),
        padLoop n letters (g : Int) t w = .ok (t ++ extra) { w with drawn := d } ∧
        (t ++ extra).length = K ∧ ∀ c ∈ extra, c ∈ letters := by
  have hL : 0 < letters.length := List.length_pos.mpr hl
  have hg0 : ¬ (g : Int) = 0 := by omega
  intro n
  induction n with
  | zero => intro t w K _ _ _ hn; exact absurd hn (Nat.not_lt_zero _)
  | succ n ih =>
    intro t w K hK hle hlt hn
    by_cases hr : t.length % g = 0
    · have hsub : (K - t.length) % g = 0 := Nat.sub_mod_eq_zero_of_mod_eq (by rw [hK, hr])
      have hKt : K - t.length = 0 := by
        rw [Nat.mod_eq_of_lt (by omega)] at hsub
        exact hsub
      refine ⟨[], w.drawn, ?_, by simp; omega, by simp⟩
      rw [padLoop, if_neg hg0, if_pos ((tmod_natCast_eq_zero _ _).mpr hr)]
      simp
    · have hne : K ≠ t.length := fun h => hr (h ▸ hK)
      have hk : w.rand w.drawn % letters.length < letters.length := Nat.mod_lt _ hL
      have hmem : letters.getD (w.rand w.drawn % letters.length) 0 ∈ letters := by
        rw [List.getD_eq_getElem _ _ hk]
        exact List.getElem_mem hk
      obtain ⟨extra, d, e, hlen, hex⟩ := ih
        (t ++ encodeRune (letters.getD (w.rand w.drawn % letters.length) 0))
        { w with drawn := w.drawn + 1 } K hK
        (by rw [encodeRune_of_lt (ha _ hmem)]; simp; omega)
        (by rw [encodeRune_of_lt (ha _ hmem)]; simp; omega)
        (by rw [encodeRune_of_lt (ha _ hmem)]; simp; omega)
      rw [encodeRune_of_lt (ha _ hmem)] at e hlen
      refine ⟨letters.getD (w.rand w.drawn % letters.length) 0 :: extra, d, ?_, ?_, ?_⟩
      · rw [padLoop, if_neg hg0, if_neg (fun h => hr ((tmod_natCast_eq_zero _ _).mp h)),
          if_neg (by omega)]
        simp only [intn, encodeRune_of_lt (ha _ hmem)]
        rw [e]
        simp
      · simpa using hlen
      · intro c hc
        rcases List.mem_cons.mp hc with h | h
        · rw [h]; exact hmem
        · exact hex c h

/-- The least multiple of `g` that is at least `a`. -/
theorem exists_next_multiple (a : Nat) {g : Nat} (hg : 1 ≤ g) :
    ∃ K, K % g = 0 ∧ a ≤ K ∧ K < a + g := by
  by_cases h : a % g = 0
  · exact ⟨a, h, Nat.le_refl _, by omega⟩
  · refine ⟨a + (g - a % g), ?_, by omega, ?_⟩
    · have hlt : a % g < g := Nat.mod_lt _ (by omega)
      have e : a + (g - a % g) = g * (a / g + 1) := by
        have := Nat.div_add_mod a g
        rw [Nat.mul_add, Nat.mul_one]
        omega
      rw [e]
      exact Nat.mul_mod_right _ _
    · have : 0 < a % g := Nat.pos_of_ne_zero h
      omega

theorem prepareLetters_spec {letters : GoString} (hl : letters ≠ []) (ha : IsASCII letters)
    {g : Nat} (hg : 1 ≤ g) {n : Nat} (hn : 50 ≤ n) (hng : g ≤ n) (w : World) :
    ∃ (t : GoString) (d : Nat),
      prepareLetters n letters (g : Int) w = .ok t { w with drawn := d } ∧
      IsASCII t ∧ t.length % g = 0 ∧ 0 < t.length := by
  have hL : 0 < letters.length := List.length_pos.mpr hl
  obtain ⟨qs, d, e, hq, hqlen⟩ := bulkLetters_spec hl ha hn w
  obtain ⟨K, hK, hle, hlt⟩ := exists_next_multiple qs.flatten.length hg
  obtain ⟨extra, d2, e2, hlen, hex⟩ := padLoop_spec hl ha hg n qs.flatten
    { w with drawn := d } K hK hle hlt (by omega)
  refine ⟨qs.flatten ++ extra, d2, ?_, ?_, ?_, ?_⟩
  · rw [prepareLetters, e]
    simp only [e2]
  · exact (flatten_perms_ascii ha qs hq).append (fun c hc => ha c (hex c hc))
  · rw [hlen]; exact hK
  · have := flatten_perms_length qs hq
    have h1 : 1 ≤ qs.length := by rw [hqlen]; exact Nat.le_max_left _ _
    have : 0 < qs.flatten.length := by
      rw [this]; exact Nat.mul_pos h1 hL
    simp only [List.length_append]
    omega

/-! ## The trace only grows -/

theorem TraceGrows.refl (w : World) : TraceGrows w w := ⟨[], by simp⟩

theorem TraceGrows.trans {w1 w2 w3 : World} (h1 : TraceGrows w1 w2) (h2 : TraceGrows w2 w3) :
    TraceGrows w1 w3 := by
  obtain ⟨a, ha⟩ := h1
  obtain ⟨b, hb⟩ := h2
  exact ⟨a ++ b, by rw [hb, ha, List.append_assoc]⟩

theorem TraceGrows.of_trace_eq {w1 w2 : World} (h : w2.trace = w1.trace) : TraceGrows w1 w2 :=
  ⟨[], by simp [h]⟩

theorem TraceGrows.emit (e : Event) (w : World) : TraceGrows w (emit e w) := ⟨[e], rfl⟩

theorem TraceGrows.emit_right {w1 w2 : World} (e : Event) (h : TraceGrows w1 w2) :
    TraceGrows w1 (NcwTester.emit e w2) := h.trans (TraceGrows.emit e w2)

theorem shuffleFrom_trace : ∀ (i : Nat) (rs : List Nat) (w : World),
    (shuffleFrom i rs w).2.trace = w.trace := by
  intro i
  induction i with
  | zero => intro rs w; rfl
  | succ i ih => intro rs w; rw [shuffleFrom, ih]; rfl

theorem shuffleString_trace (s : GoString) (w : World) :
    (shuffleString s w).2.trace = w.trace := by
  simp only [shuffleString, randShuffle, shuffleFrom_trace]

theorem bulkLoop_trace (letters : GoString) : ∀ (n : Nat) (t : GoString) (w : World),
    (bulkLoop n letters t w).world.trace = w.trace := by
  intro n
  induction n with
  | zero => intro t w; rfl
  | succ n ih =>
    intro t w
    rw [bulkLoop]
    split
    · rw [ih, shuffleString_trace]
    · rfl

theorem padLoop_trace (letters : GoString) (group : Int) : ∀ (n : Nat) (t : GoString)
    (w : World), (padLoop n letters group t w).world.trace = w.trace := by
  intro n
  induction n with
  | zero => intro t w; rfl
  | succ n ih =>
    intro t w
    rw [padLoop]
    split
    · rfl
    · split
      · rfl
      · split
        · rfl
        · rw [ih]; rfl

theorem prepareLetters_trace (n : Nat) (letters : GoString) (group : Int) (w : World) :
    (prepareLetters n letters group w).world.trace = w.trace := by
  have hb := bulkLoop_trace letters n (shuffleString letters w).1 (shuffleString letters w).2
  rw [shuffleString_trace] at hb
  rw [prepareLetters, bulkLetters]
  split
  · next h w1 e => rw [e] at hb; exact hb
  · next t w1 e =>
    rw [e] at hb
    rw [padLoop_trace]
    exact hb

theorem getChar_grows (w : World) : TraceGrows w (getChar w).world := by
  rw [getChar]
  split
  · exact TraceGrows.emit _ _
  · exact ⟨[_], rfl⟩

theorem yornLoop_grows : ∀ (n : Nat) (w : World), TraceGrows w (yornLoop n w).world := by
  intro n
  induction n with
  | zero => intro w; exact TraceGrows.refl _
  | succ n ih =>
    intro w
    have hg := getChar_grows w
    rw [yornLoop]
    split
    · next h w1 e => rw [e] at hg; exact hg
    · next c w1 e =>
      rw [e] at hg
      split
      · exact hg
      · split
        · exact hg.emit_right _
        · exact hg.trans (ih w1)

theorem yorn_grows (n : Nat) (p : Prompt) (w : World) : TraceGrows w (yorn n p w).world := by
  have h := (TraceGrows.emit (.printPrompt p) w).trans (yornLoop_grows n (emit (.printPrompt p) w))
  rw [yorn]
  split
  · next h1 w1 e => rw [e] at h; exact h
  · next c w1 e => rw [e] at h; exact h.emit_right _

theorem sendRunes_grows (t : GoString) : ∀ (js : List Nat) (w : World),
    TraceGrows w (sendRunes t js w).world := by
  intro js
  induction js with
  | nil => intro w; exact TraceGrows.refl _
  | cons j js ih =>
    intro w
    rw [sendRunes]
    split
    · exact TraceGrows.refl _
    · exact (TraceGrows.emit _ w).trans (ih _)

theorem sendGroup_grows (group : Int) (t : GoString) (i : Nat) (w : World) :
    TraceGrows w (sendGroup group t i w).world := by
  have h := sendRunes_grows t ((List.range group.toNat).map (i + ·))
    (emit (.cwRune 0x20) (emit .cwClear (emit .cwReset w)))
  have h0 : TraceGrows w (emit (.cwRune 0x20) (emit .cwClear (emit .cwReset w))) :=
    (((TraceGrows.refl w).emit_right _).emit_right _).emit_right _
  rw [sendGroup]
  split
  · next h1 w4 e => rw [e] at h; exact h0.trans h
  · next u w4 e => rw [e] at h; exact (h0.trans h).emit_right _

theorem letterBody_grows (group : Int) (t : GoString) (i tx : Nat) (w : World) :
    TraceGrows w (letterBody group t i tx w).world := by
  rw [letterBody]
  split
  · exact TraceGrows.refl _
  · have hpre : TraceGrows w
        (if Int.tmod i group = 0 then sendGroup group t i w else Res.ok () w).world := by
      split
      · exact sendGroup_grows _ _ _ _
      · exact TraceGrows.refl _
    split
    · next h w1 e => rw [e] at hpre; exact hpre
    · next u w1 e =>
      rw [e] at hpre
      have hg := getChar_grows w1
      split
      · next h w2 e2 => rw [e2] at hg; exact hpre.trans hg
      · next rx w2 e2 =>
        rw [e2] at hg
        split
        · exact hpre.trans hg
        · exact (((((hpre.trans hg).emit_right _).emit_right _).emit_right _).emit_right
            _).emit_right _

theorem letterLoop_grows (group : Int) (t : GoString) : ∀ (ps : List (Nat × Nat)) (w : World),
    TraceGrows w (letterLoop group t ps w).world := by
  intro ps
  induction ps with
  | nil => intro w; exact TraceGrows.refl _
  | cons p ps ih =>
    intro w
    obtain ⟨i, tx⟩ := p
    have hb := letterBody_grows group t i tx w
    rw [letterLoop]
    split
    · next h w1 e => rw [e] at hb; exact hb
    · next w1 e => rw [e] at hb; exact hb
    · next w1 e => rw [e] at hb; exact hb.trans (ih w1)

theorem playRound_grows (group : Int) (t : GoString) (w : World) :
    TraceGrows w (playRound group t w).world := by
  rw [playRound]
  exact ((((TraceGrows.refl w).emit_right _).emit_right _).emit_right _).emit_right _ |>.trans
    (letterLoop_grows _ _ _ _)

theorem roundIter_grows (n : Nat) (f : Flags) (w : World) :
    TraceGrows w (roundIter n f w).world := by
  have hp := prepareLetters_trace n f.letters f.group w
  rw [roundIter]
  split
  · next h w1 e => rw [e] at hp; exact TraceGrows.of_trace_eq hp
  · next t w1 e =>
    rw [e] at hp
    have hy := yorn_grows n ⟨t.length, Int.tdiv t.length f.group⟩ w1
    have h1 := TraceGrows.of_trace_eq hp
    split
    · next h w2 e2 => rw [e2] at hy; exact h1.trans hy
    · next w2 e2 => rw [e2] at hy; exact h1.trans hy
    · next w2 e2 =>
      rw [e2] at hy
      have hr := playRound_grows f.group t w2
      split
      · next h w3 e3 => rw [e3] at hr; exact (h1.trans hy).trans hr
      · next w3 e3 => rw [e3] at hr; exact (h1.trans hy).trans hr
      · next w3 e3 =>
        rw [e3] at hr
        exact (((h1.trans hy).trans hr).emit_right _).emit_right _

theorem outerLoop_grows (n : Nat) (f : Flags) : ∀ (k : Nat) (w : World),
    TraceGrows w (outerLoop n k f w).world := by
  intro k
  induction k with
  | zero => intro w; exact TraceGrows.refl _
  | succ k ih =>
    intro w
    have hr := roundIter_grows n f w
    rw [outerLoop]
    split
    · next h w1 e => rw [e] at hr; exact hr
    · next w1 e => rw [e] at hr; exact hr
    · next w1 e => rw [e] at hr; exact hr.trans (ih w1)

/-! ## The claims about the letters of a round -/

/-- C6: the default value of the `letters` flag consists of exactly the lowercase
letters a-z, the digits 0-9 and the characters `. = / , ?`; it has 41 characters,
all ASCII, none twice, each is its own lowercase form, and `getChar` returns it
when that byte is typed. -/
theorem default_alphabet :
    (∀ c, c ∈ defaultFlags.letters ↔
      (0x61 ≤ c ∧ c ≤ 0x7A) ∨ (0x30 ≤ c ∧ c ≤ 0x39) ∨
        c = 0x2E ∨ c = 0x3D ∨ c = 0x2F ∨ c = 0x2C ∨ c = 0x3F) ∧
    defaultFlags.letters.length = 41 ∧
    IsASCII defaultFlags.letters ∧
    defaultFlags.letters.Nodup ∧
    toRunes defaultFlags.letters = defaultFlags.letters ∧
    (∀ c ∈ defaultFlags.letters, unicodeToLower c = c) ∧
    (∀ c ∈ defaultFlags.letters, ∀ (w : World) (rest : List Nat), w.stdin = c :: rest →
      (getChar w).value = some c) := by
  have e : defaultFlags.letters =
      [0x61, 0x62, 0x63, 0x64, 0x65, 0x66, 0x67, 0x68, 0x69, 0x6A, 0x6B, 0x6C, 0x6D, 0x6E,
        0x6F, 0x70, 0x71, 0x72, 0x73, 0x74, 0x75, 0x76, 0x77, 0x78, 0x79, 0x7A,
        0x30, 0x31, 0x32, 0x33, 0x34, 0x35, 0x36, 0x37, 0x38, 0x39,
        0x2E, 0x3D, 0x2F, 0x2C, 0x3F] := by decide
  have hlow : ∀ c ∈ defaultFlags.letters, unicodeToLower c = c := by decide
  refine ⟨?_, by decide, by decide, by decide, by decide, hlow, ?_⟩
  · intro c
    rw [e]
    simp only [List.mem_cons, List.mem_singleton, List.not_mem_nil, or_false]
    constructor <;> intro h <;> omega
  · intro c hc w rest hw
    rw [getChar, hw]
    simp only [Res.value, hlow c hc]

/-- C7: for a non-empty ASCII letter set of length `L` and any random source, the
bulking loop ends (fuel 50 is enough) with the concatenation of
`k = max 1 (50 / L)` permutations of the letter set: `L * k` characters, more than
`50 - L`, every character `k` times as often as in the letter set;
`shuffleString` returns a permutation of its argument. With the
default alphabet the loop ends with 41 letters, each character of the alphabet
once. -/
theorem bulkLetters_concat_of_perms (letters : GoString) (n : Nat) (w : World)
    (hl : letters ≠ []) (ha : IsASCII letters) (hn : 50 ≤ n) :
    (∃ (ps : List GoString) (d : Nat),
      bulkLetters n letters w = .ok ps.flatten { w with drawn := d } ∧
      ps.length = max 1 (50 / letters.length) ∧
      (∀ p ∈ ps, p.Perm letters) ∧
      ps.flatten.length = letters.length * max 1 (50 / letters.length) ∧
      50 < ps.flatten.length + letters.length ∧
      (∀ c, ps.flatten.count c = max 1 (50 / letters.length) * letters.count c)) ∧
    (shuffleString letters w).1.Perm letters ∧
    (∃ (t : GoString) (d : Nat),
      bulkLetters n defaultFlags.letters w = .ok t { w with drawn := d } ∧
      t.Perm defaultFlags.letters ∧ t.length = 41 ∧ t.Nodup ∧
      ∀ c ∈ defaultFlags.letters, t.count c = 1) := by
  refine ⟨?_, (shuffleString_spec ha w).1, ?_⟩
  · have hL : 0 < letters.length := List.length_pos.mpr hl
    obtain ⟨qs, d, e, hq, hqlen⟩ := bulkLetters_spec hl ha hn w
    have hlen := flatten_perms_length qs hq
    refine ⟨qs, d, e, hqlen, hq, ?_, ?_, ?_⟩
    · rw [hlen, hqlen, Nat.mul_comm]
    · rw [hlen, hqlen]
      have h1 : 50 / letters.length < max 1 (50 / letters.length) + 1 :=
        Nat.lt_succ_of_le (Nat.le_max_right _ _)
      have h2 := (Nat.div_lt_iff_lt_mul hL).mp h1
      rw [Nat.succ_mul] at h2
      exact h2
    · intro c
      rw [flatten_perms_count c qs hq, hqlen]
  · have hl0 : defaultFlags.letters ≠ [] := by decide
    have ha0 : IsASCII defaultFlags.letters := by decide
    obtain ⟨qs, d, e, hq, hqlen⟩ := bulkLetters_spec hl0 ha0 hn w
    have h41 : defaultFlags.letters.length = 41 := by decide
    have hlen := flatten_perms_length qs hq
    rw [h41] at hqlen hlen
    have hq1 : qs.length = 1 := by rw [hqlen]; decide
    obtain ⟨p, rfl⟩ := List.length_eq_one.mp hq1
    have hp : p.Perm defaultFlags.letters := hq p (List.mem_singleton_self _)
    simp only [List.flatten_cons, List.flatten_nil, List.append_nil] at e hlen
    have hnd : p.Nodup := hp.nodup_iff.mpr (by decide)
    refine ⟨p, d, e, hp, by rw [hp.length_eq, h41], hnd, ?_⟩
    intro c hc
    exact List.count_eq_one_of_mem hnd (hp.symm.subset hc)

/-- C7, at a concrete input: the letter set `abc`. -/
theorem bulkLetters_concat_of_perms_witness :
    (str "abc" ≠ [] ∧ IsASCII (str "abc") ∧ 50 ≤ 50) ∧
    ((∃ (ps : List GoString) (d : Nat),
      bulkLetters 50 (str "abc") (sampleWorld []) =
        .ok ps.flatten { sampleWorld [] with drawn := d } ∧
      ps.length = max 1 (50 / (str "abc").length) ∧
      (∀ p ∈ ps, p.Perm (str "abc")) ∧
      ps.flatten.length = (str "abc").length * max 1 (50 / (str "abc").length) ∧
      50 < ps.flatten.length + (str "abc").length ∧
      (∀ c, ps.flatten.count c = max 1 (50 / (str "abc").length) * (str "abc").count c)) ∧
    (shuffleString (str "abc") (sampleWorld [])).1.Perm (str "abc") ∧
    (∃ (t : GoString) (d : Nat),
      bulkLetters 50 defaultFlags.letters (sampleWorld []) =
        .ok t { sampleWorld [] with drawn := d } ∧
      t.Perm defaultFlags.letters ∧ t.length = 41 ∧ t.Nodup ∧
      ∀ c ∈ defaultFlags.letters, t.count c = 1)) :=
  ⟨⟨by decide, by decide, by decide⟩,
    bulkLetters_concat_of_perms (str "abc") 50 (sampleWorld []) (by decide) (by decide)
      (by decide)⟩

/-- C3: for a non-empty ASCII letter set, a group size of at least 1 and any
random source, the padding loop ends (fuel `group` is enough) with a string whose
length is divisible by `group`: the string it started from followed by fewer than
`group` characters, each from the letter set; the length is the least multiple of
`group` not below the starting length, so nothing is appended when the starting
length is already a multiple. -/
theorem padLoop_whole_groups (letters : GoString) (group : Int) (n : Nat) (t : GoString)
    (w : World) (hl : letters ≠ []) (ha : IsASCII letters) (hg : 1 ≤ group)
    (hn : group ≤ n) :
    ∃ (extra : GoString) (d : Nat),
      padLoop n letters group t w = .ok (t ++ extra) { w with drawn := d } ∧
      ((t ++ extra).length : Int) % group = 0 ∧
      (extra.length : Int) < group ∧
      (∀ c ∈ extra, c ∈ letters) ∧
      (∀ m : Nat, (m : Int) % group = 0 → t.length ≤ m → (t ++ extra).length ≤ m) ∧
      ((t.length : Int) % group = 0 → extra = []) := by
  obtain ⟨g, rfl⟩ := Int.eq_ofNat_of_zero_le (by omega : 0 ≤ group)
  have hg1 : 1 ≤ g := by omega
  have hng : g ≤ n := by omega
  obtain ⟨K, hK, hle, hlt⟩ := exists_next_multiple t.length hg1
  obtain ⟨extra, d, e, hlen, hex⟩ := padLoop_spec hl ha hg1 n t w K hK hle hlt (by omega)
  have hmod : ∀ a : Nat, (a : Int) % (g : Int) = 0 ↔ a % g = 0 := by
    intro a
    rw [← Int.natCast_mod]
    exact Int.natCast_eq_zero
  have hel : t.length + extra.length = K := by simpa using hlen
  refine ⟨extra, d, e, ?_, by omega, hex, ?_, ?_⟩
  · rw [hlen]; exact (hmod K).mpr hK
  · intro m hm htm
    rw [hlen]
    by_contra hcon
    have hmK : m < K := by omega
    have hsub : (K - m) % g = 0 :=
      Nat.sub_mod_eq_zero_of_mod_eq (by rw [hK, (hmod m).mp hm])
    rw [Nat.mod_eq_of_lt (by omega)] at hsub
    omega
  · intro h0
    have hsub : (K - t.length) % g = 0 :=
      Nat.sub_mod_eq_zero_of_mod_eq (by rw [hK, (hmod _).mp h0])
    rw [Nat.mod_eq_of_lt (by omega)] at hsub
    apply List.length_eq_zero.mp
    omega

/-- C3, at a concrete input: four letters padded to groups of three. -/
theorem padLoop_whole_groups_witness :
    (str "ab" ≠ [] ∧ IsASCII (str "ab") ∧ (1 : Int) ≤ 3 ∧ (3 : Int) ≤ (3 : Nat)) ∧
    ∃ (extra : GoString) (d : Nat),
      padLoop 3 (str "ab") 3 (str "abab") (sampleWorld []) =
        .ok (str "abab" ++ extra) { sampleWorld [] with drawn := d } ∧
      ((str "abab" ++ extra).length : Int) % 3 = 0 ∧
      (extra.length : Int) < 3 ∧
      (∀ c ∈ extra, c ∈ str "ab") ∧
      (∀ m : Nat, (m : Int) % 3 = 0 → (str "abab").length ≤ m →
        (str "abab" ++ extra).length ≤ m) ∧
      (((str "abab").length : Int) % 3 = 0 → extra = []) :=
  ⟨⟨by decide, by decide, by decide, by decide⟩,
    padLoop_whole_groups (str "ab") 3 3 (str "abab") (sampleWorld []) (by decide)
      (by decide) (by decide) (by decide)⟩

/-! ## The claims about construction -/

theorem run_trace_head (n : Nat) (f : Flags) (newResult : Option GoError) (w : World) :
    ∃ rest, (run n f newResult w).2.trace = w.trace ++ Event.cwNew (runOptions f) :: rest := by
  unfold run
  cases newResult with
  | some err => exact ⟨[], rfl⟩
  | none =>
    have h := outerLoop_grows n f n
      (emit (.newStats .session) (emit (.newCSVLog f.logFile) (emit (.cwNew (runOptions f)) w)))
    simp only
    split
    · next h1 w4 e =>
      rw [e] at h
      obtain ⟨es, hes⟩ := h
      exact ⟨.newCSVLog f.logFile :: .newStats .session :: es,
        by simp only [Res.world] at hes; rw [hes]; simp [emit]⟩
    · next u w4 e =>
      rw [e] at h
      obtain ⟨es, hes⟩ := h
      refine ⟨.newCSVLog f.logFile :: .newStats .session :: (es ++
        [.printLine (str "Session stats"), .totalSummary .session, .newStats .final,
          .statsLoad f.logFile f.timeCutoff, .summary .final]), ?_⟩
      simp only [Res.world] at hes
      simp only [emit, hes]
      simp

/-- C4: the first effect of `run` is the call `cwplayer.New(opt)` with
`ChannelNum = 2` (one of 1, 2), `BitDepthInBytes = 2` (one of 1, 2, 4),
`MaxSampleValue = 32767 = 2^(8 * BitDepthInBytes - 1) - 1`, and `WPM`, `Frequency`
and `SampleRate` equal to the flags `wpm`, `frequency` and `samplerate`, whose
defaults are 25.0, 600.0 and 44100. -/
theorem run_options (n : Nat) (f : Flags) (newResult : Option GoError) (w : World) :
    (∃ opt rest, (run n f newResult w).2.trace = w.trace ++ Event.cwNew opt :: rest ∧
      opt.ChannelNum = 2 ∧ (opt.ChannelNum = 1 ∨ opt.ChannelNum = 2) ∧
      opt.BitDepthInBytes = 2 ∧
      (opt.BitDepthInBytes = 1 ∨ opt.BitDepthInBytes = 2 ∨ opt.BitDepthInBytes = 4) ∧
      opt.MaxSampleValue = 32767 ∧
      opt.MaxSampleValue = 2 ^ (8 * opt.BitDepthInBytes.toNat - 1) - 1 ∧
      opt.WPM = f.wpm ∧ opt.Frequency = f.frequency ∧ opt.SampleRate = f.sampleRate) ∧
    defaultFlags.wpm = 25.0 ∧ defaultFlags.frequency = 600.0 ∧
    defaultFlags.sampleRate = 44100 := by
  obtain ⟨rest, h⟩ := run_trace_head n f newResult w
  exact ⟨⟨runOptions f, rest, h, rfl, Or.inr rfl, rfl, Or.inr (Or.inl rfl), rfl,
    by simp [runOptions, maxSampleValue, bitDepthInBytes], rfl, rfl, rfl⟩, rfl, rfl, rfl⟩

set_option maxRecDepth 1000000 in
/-- C5: `run` returns a non-nil error exactly when `cwplayer.New` fails. Then the
error wraps the error of `New`, its text is that error's text after
"failed to make cw generator: ", and the call of `New` is the only effect: nothing
was read, drawn, played, printed or logged. When `New` succeeds, `run` can only
return nil, as it does with the default flags when `n` is typed. -/
theorem run_error_iff_new_fails (n : Nat) (f : Flags) (newResult : Option GoError)
    (w : World) :
    ((∃ e, (run n f newResult w).1 = .returned (some e)) ↔ ∃ err, newResult = some err) ∧
    (∀ err, newResult = some err →
      run n f newResult w =
        (.returned (some (.wrapping (str "failed to make cw generator: " ++ err.text) err)),
          { w with trace := w.trace ++ [Event.cwNew (runOptions f)] })) ∧
    (newResult = none → ∀ o, (run n f newResult w).1 = .returned o → o = none) ∧
    (run 50 defaultFlags none (sampleWorld [0x6E])).1 = .returned none := by
  have hnil : (run 50 defaultFlags none (sampleWorld [0x6E])).1 = .returned none := by decide
  cases newResult with
  | some err =>
    refine ⟨⟨fun _ => ⟨err, rfl⟩, fun _ => ⟨_, rfl⟩⟩, ?_, (by intro h; cases h), hnil⟩
    intro err2 h
    cases h
    rfl
  | none =>
    have key : ∀ o, (run n f none w).1 = .returned o → o = none := by
      intro o
      unfold run
      simp only
      split
      · intro h; cases h
      · intro h; cases h; rfl
    refine ⟨⟨?_, ?_⟩, (by intro err h; cases h), fun _ => key, hnil⟩
    · rintro ⟨e, he⟩
      exact absurd (key _ he) (by simp)
    · rintro ⟨err, h⟩
      cases h

/-! ## One iteration of the letter loop -/

theorem sendRunes_ok (t : GoString) : ∀ (js : List Nat) (w : World),
    (∀ j ∈ js, j < t.length) →
    sendRunes t js w =
      .ok () { w with trace := w.trace ++ js.map (fun j => Event.cwRune (t.getD j 0)) } := by
  intro js
  induction js with
  | nil => intro w _; simp [sendRunes]
  | cons j js ih =>
    intro w h
    have hj : j < t.length := h j (List.mem_cons_self _ _)
    rw [sendRunes, List.getElem?_eq_getElem hj]
    simp only
    rw [ih _ (fun k hk => h k (List.mem_cons_of_mem _ hk))]
    simp [emit, List.getElem?_eq_getElem hj]

theorem sendGroup_ok {g : Nat} {t : GoString} {i : Nat} (hfit : i + g ≤ t.length)
    (w : World) :
    sendGroup (g : Int) t i w = .ok () { w with trace := w.trace ++ groupEvents g t i } := by
  have h := sendRunes_ok t ((List.range g).map (i + ·))
    (emit (.cwRune 0x20) (emit .cwClear (emit .cwReset w)))
    (by
      intro j hj
      obtain ⟨p, hp, rfl⟩ := List.mem_map.mp hj
      have := List.mem_range.mp hp
      omega)
  rw [sendGroup]
  simp only [Int.toNat_ofNat, h]
  simp [emit, groupEvents, List.map_map, Function.comp_def]

theorem letterBody_eq {g : Nat} (hg : 1 ≤ g) {t : GoString} {i : Nat}
    (hfit : i % g = 0 → i + g ≤ t.length) (tx : Nat) (w : World) :
    letterBody (g : Int) t i tx w =
      match w.stdin with
      | [] => .halt (.osExit 1) { w with trace := w.trace ++ preEvents g t i ++ [.logFatal] }
      | b :: rest =>
        if isExit (unicodeToLower b) then
          .ok .breakOuter
            { w with stdin := rest, trace := w.trace ++ preEvents g t i ++ [.termRead b] }
        else
          .ok .next
            { w with
              stdin := rest
              trace := w.trace ++ preEvents g t i ++
                .termRead b :: recordEvents w.clock t.length i tx (unicodeToLower b)
                  (w.trace.length + (preEvents g t i).length) } := by
  have hg0 : ¬ (g : Int) = 0 := by omega
  rw [letterBody, if_neg hg0]
  by_cases hi : i % g = 0
  · rw [if_pos ((tmod_natCast_eq_zero i g).mpr hi), sendGroup_ok (hfit hi)]
    simp only [preEvents, if_pos hi]
    cases hs : w.stdin with
    | nil => simp [getChar, hs, emit]
    | cons b rest =>
      simp only [getChar, hs, emit, now]
      split
      · simp
      · simp [recordEvents, Nat.add_assoc]
  · rw [if_neg (fun h => hi ((tmod_natCast_eq_zero i g).mp h))]
    simp only [preEvents, if_neg hi]
    cases hs : w.stdin with
    | nil => simp [getChar, hs, emit]
    | cons b rest =>
      simp only [getChar, hs, emit, now]
      split
      · simp
      · simp [recordEvents]

theorem group_fits {g n i : Nat} (hn : n % g = 0) (hi : i % g = 0) (hlt : i < n) :
    i + g ≤ n := by
  obtain ⟨c, rfl⟩ := Nat.dvd_of_mod_eq_zero hn
  obtain ⟨a, rfl⟩ := Nat.dvd_of_mod_eq_zero hi
  have hac : a < c := Nat.lt_of_mul_lt_mul_left hlt
  calc g * a + g = g * (a + 1) := by rw [Nat.mul_add, Nat.mul_one]
    _ ≤ g * c := Nat.mul_le_mul_left g hac

theorem succ_mod_eq {g : Nat} (hg : 1 ≤ g) (i : Nat) :
    (i + 1) % g = if i % g + 1 = g then 0 else i % g + 1 := by
  have hlt : i % g < g := Nat.mod_lt _ (by omega)
  have h := Nat.div_add_mod i g
  split
  · next he =>
    have e : i + 1 = g * (i / g + 1) := by rw [Nat.mul_add, Nat.mul_one]; omega
    rw [e]
    exact Nat.mul_mod_right _ _
  · next hne =>
    have e : i + 1 = (i % g + 1) + g * (i / g) := by omega
    rw [e, Nat.add_mul_mod_self_left]
    exact Nat.mod_eq_of_lt (by omega)

theorem padLoop_ok (letters : GoString) (group : Int) :
    ∀ (n : Nat) (t : GoString) (w : World) (t1 : GoString) (w1 : World),
      padLoop n letters group t w = .ok t1 w1 →
      group ≠ 0 ∧ Int.tmod t1.length group = 0 := by
  intro n
  induction n with
  | zero => intro t w t1 w1 h; simp [padLoop] at h
  | succ n ih =>
    intro t w t1 w1 h
    rw [padLoop] at h
    split at h
    · cases h
    · next hg =>
      split at h
      · next hr =>
        cases h
        exact ⟨hg, hr⟩
      · split at h
        · cases h
        · exact ih _ _ _ _ h

theorem prepareLetters_ok {n : Nat} {letters : GoString} {group : Int} {w w1 : World}
    {t : GoString} (h : prepareLetters n letters group w = .ok t w1) :
    group ≠ 0 ∧ Int.tmod t.length group = 0 := by
  rw [prepareLetters] at h
  split at h
  · cases h
  · exact padLoop_ok _ _ _ _ _ _ _ h

theorem letterBody_of_pre {group : Int} {t : GoString} {i : Nat} {w w2 : World} {b : Nat}
    {rest : List Nat} (tx : Nat) (hg : group ≠ 0)
    (hpre : (if Int.tmod i group = 0 then sendGroup group t i w else Res.ok () w) =
      .ok () w2)
    (hs : w2.stdin = b :: rest) :
    letterBody group t i tx w =
      if isExit (unicodeToLower b) then
        .ok .breakOuter { w2 with stdin := rest, trace := w2.trace ++ [.termRead b] }
      else
        .ok .next
          { w2 with
            stdin := rest
            trace := w2.trace ++
              .termRead b :: recordEvents w2.clock t.length i tx (unicodeToLower b)
                w2.trace.length } := by
  rw [letterBody, if_neg hg, hpre]
  simp only [getChar, hs, emit, now]
  split
  · rfl
  · simp [recordEvents]

theorem letterLoop_append (group : Int) (t : GoString) :
    ∀ (ps1 ps2 : List (Nat × Nat)) (w w1 : World),
      letterLoop group t ps1 w = .ok .next w1 →
      letterLoop group t (ps1 ++ ps2) w = letterLoop group t ps2 w1 := by
  intro ps1
  induction ps1 with
  | nil =>
    intro ps2 w w1 h
    rw [letterLoop] at h
    cases h
    rfl
  | cons p ps1 ih =>
    intro ps2 w w1 h
    obtain ⟨i, tx⟩ := p
    rw [letterLoop] at h
    rw [List.cons_append, letterLoop]
    split at h
    · cases h
    · cases h
    · next w3 e =>
      exact ih ps2 w3 w1 h

theorem outerLoop_afterRounds (n : Nat) (f : Flags) :
    ∀ (j k : Nat) (w wa : World), afterRounds n f j w = some wa →
      outerLoop n (j + k) f w = outerLoop n k f wa := by
  intro j
  induction j with
  | zero =>
    intro k w wa h
    rw [afterRounds] at h
    cases h
    rw [Nat.zero_add]
  | succ j ih =>
    intro k w wa h
    rw [afterRounds] at h
    rw [show j + 1 + k = (j + k) + 1 by omega, outerLoop]
    split at h
    · next w1 e =>
      rw [e]
      exact ih k w1 wa h
    · cases h

/-- C8: `isExit r` holds exactly for 0x03 and 0x1B. Take any response read in the
letter loop of `run`: in round `j + 1`, after the letters `ps1` of the round have
been answered, the letter `tx` at index `i` has been sent if a group starts there,
and the byte `b` is typed; `getChar` lowers it to `rx`. If `isExit rx`, the
iteration, the letter loop, the round and the loop `outer` all end in the world
right after the read, so nothing is printed or recorded for the letter, and `run`
goes on to the session statistics and returns nil. Otherwise the iteration ends
after exactly the effects listed: the attempt is printed, reported OK exactly
when `rx == tx`, and one record with `tx`, `rx` and the same reaction time goes
to the CSV log, the round statistics and the session statistics; the loop goes
on with the next letter. -/
theorem letter_response (n j : Nat) (f : Flags) (w0 wa wb wc w1 w2 : World) (t : GoString)
    (ps1 ps2 : List (Nat × Nat)) (i tx b : Nat) (rest : List Nat)
    (hj : j < n)
    (hrounds : afterRounds n f j (runStart f w0) = some wa)
    (hprep : prepareLetters n f.letters f.group wa = .ok t wb)
    (hyorn : yorn n ⟨t.length, Int.tdiv t.length f.group⟩ wb = .ok true wc)
    (hsplit : rangeString t = ps1 ++ (i, tx) :: ps2)
    (hearlier : letterLoop f.group t ps1 (roundStart wc) = .ok .next w1)
    (hpre : (if Int.tmod i f.group = 0 then sendGroup f.group t i w1 else Res.ok () w1) =
      .ok () w2)
    (hs : w2.stdin = b :: rest) :
    (∀ r, isExit r = true ↔ r = 0x03 ∨ r = 0x1B) ∧
    (isExit (unicodeToLower b) = true →
      letterBody f.group t i tx w1 =
        .ok .breakOuter { w2 with stdin := rest, trace := w2.trace ++ [.termRead b] } ∧
      playRound f.group t wc =
        .ok .breakOuter { w2 with stdin := rest, trace := w2.trace ++ [.termRead b] } ∧
      roundIter n f wa =
        .ok .breakOuter { w2 with stdin := rest, trace := w2.trace ++ [.termRead b] } ∧
      run n f none w0 =
        (.returned none,
          { w2 with
            stdin := rest
            trace := w2.trace ++
              [.termRead b, .printLine (str "Session stats"), .totalSummary .session,
                .newStats .final, .statsLoad f.logFile f.timeCutoff, .summary .final] })) ∧
    (isExit (unicodeToLower b) = false →
      letterBody f.group t i tx w1 =
        .ok .next
          { w2 with
            stdin := rest
            trace := w2.trace ++
              [.termRead b,
                .printAttempt (i + 1) t.length tx
                  (ms ((w2.clock (w2.trace.length + 1) : Int) - w2.clock w2.trace.length)),
                if unicodeToLower b == tx then .printOK else .printBad (unicodeToLower b),
                .csvAdd tx (unicodeToLower b)
                  ((w2.clock (w2.trace.length + 1) : Int) - w2.clock w2.trace.length),
                .statsAdd .round (encodeRune tx) (encodeRune (unicodeToLower b))
                  ((w2.clock (w2.trace.length + 1) : Int) - w2.clock w2.trace.length),
                .statsAdd .session (encodeRune tx) (encodeRune (unicodeToLower b))
                  ((w2.clock (w2.trace.length + 1) : Int) - w2.clock w2.trace.length)] } ∧
      playRound f.group t wc =
        letterLoop f.group t ps2
          { w2 with
            stdin := rest
            trace := w2.trace ++
              .termRead b :: recordEvents w2.clock t.length i tx (unicodeToLower b)
                w2.trace.length }) := by
  have hg : f.group ≠ 0 := (prepareLetters_ok hprep).1
  have hbody := letterBody_of_pre tx hg hpre hs
  have hloop : playRound f.group t wc = letterLoop f.group t ((i, tx) :: ps2) w1 := by
    have := letterLoop_append f.group t ps1 ((i, tx) :: ps2) (roundStart wc) w1 hearlier
    rw [← hsplit] at this
    exact this
  refine ⟨?_, ?_, ?_⟩
  · intro r
    simp [isExit]
  · intro hx
    rw [if_pos hx] at hbody
    have hplay : playRound f.group t wc =
        .ok .breakOuter { w2 with stdin := rest, trace := w2.trace ++ [.termRead b] } := by
      rw [hloop, letterLoop, hbody]
    have hround : roundIter n f wa =
        .ok .breakOuter { w2 with stdin := rest, trace := w2.trace ++ [.termRead b] } := by
      rw [roundIter, hprep]
      simp only [hyorn, hplay]
    refine ⟨hbody, hplay, hround, ?_⟩
    obtain ⟨k, rfl⟩ : ∃ k, n = j + (k + 1) := ⟨n - j - 1, by omega⟩
    have hout := outerLoop_afterRounds (j + (k + 1)) f j (k + 1) (runStart f w0) wa hrounds
    rw [outerLoop, hround] at hout
    unfold run
    simp only
    have hstart : emit (.newStats .session) (emit (.newCSVLog f.logFile)
        (emit (.cwNew (runOptions f)) w0)) = runStart f w0 := rfl
    rw [hstart, hout]
    simp [emit]
  · intro hx
    rw [if_neg (by simp [hx])] at hbody
    refine ⟨?_, ?_⟩
    · rw [hbody]
      rfl
    · rw [hloop, letterLoop, hbody]

set_option maxRecDepth 1000000 in
/-- C8, at a concrete input: default flags, `y` accepts the round, the first
letter is answered with `a`, and ESC is typed for the second letter, after its
group has been sent. -/
theorem letter_response_witness :
    (0 < 50 ∧
      afterRounds 50 defaultFlags 0 (runStart defaultFlags (sampleWorld [0x79, 0x61, 0x1B])) =
        some (runStart defaultFlags (sampleWorld [0x79, 0x61, 0x1B])) ∧
      (prepareLetters 50 defaultFlags.letters defaultFlags.group
        (runStart defaultFlags (sampleWorld [0x79, 0x61, 0x1B]))).value =
          some (str "qngwjh?i42m=vt76bxf1/zo.pe38aul90s,c5yrkd") ∧
      rangeString (str "qngwjh?i42m=vt76bxf1/zo.pe38aul90s,c5yrkd") =
        [(0, 0x71)] ++ (1, 0x6E) ::
          (rangeString (str "qngwjh?i42m=vt76bxf1/zo.pe38aul90s,c5yrkd")).drop 2 ∧
      isExit (unicodeToLower 0x1B) = true) ∧
    run 50 defaultFlags none (sampleWorld [0x79, 0x61, 0x1B]) =
      (.returned none,
        { (sendGroup defaultFlags.group (str "qngwjh?i42m=vt76bxf1/zo.pe38aul90s,c5yrkd") 1
            (letterLoop defaultFlags.group (str "qngwjh?i42m=vt76bxf1/zo.pe38aul90s,c5yrkd")
              [(0, 0x71)]
              (roundStart (yorn 50 ⟨41, 41⟩
                (prepareLetters 50 defaultFlags.letters defaultFlags.group
                  (runStart defaultFlags
                    (sampleWorld [0x79, 0x61, 0x1B]))).world).world)).world).world with
          stdin := []
          trace :=
            (sendGroup defaultFlags.group (str "qngwjh?i42m=vt76bxf1/zo.pe38aul90s,c5yrkd") 1
              (letterLoop defaultFlags.group
                (str "qngwjh?i42m=vt76bxf1/zo.pe38aul90s,c5yrkd") [(0, 0x71)]
                (roundStart (yorn 50 ⟨41, 41⟩
                  (prepareLetters 50 defaultFlags.letters defaultFlags.group
                    (runStart defaultFlags
                      (sampleWorld [0x79, 0x61, 0x1B]))).world).world)).world).world.trace ++
              [.termRead 0x1B, .printLine (str "Session stats"), .totalSummary .session,
                .newStats .final, .statsLoad defaultFlags.logFile defaultFlags.timeCutoff,
                .summary .final] }) :=
  ⟨⟨by decide, rfl, by decide, by decide, by decide⟩,
    ((letter_response 50 0 defaultFlags (sampleWorld [0x79, 0x61, 0x1B])
      (runStart defaultFlags (sampleWorld [0x79, 0x61, 0x1B]))
      (prepareLetters 50 defaultFlags.letters defaultFlags.group
        (runStart defaultFlags (sampleWorld [0x79, 0x61, 0x1B]))).world
      (yorn 50 ⟨41, 41⟩
        (prepareLetters 50 defaultFlags.letters defaultFlags.group
          (runStart defaultFlags (sampleWorld [0x79, 0x61, 0x1B]))).world).world
      (letterLoop defaultFlags.group (str "qngwjh?i42m=vt76bxf1/zo.pe38aul90s,c5yrkd")
        [(0, 0x71)]
        (roundStart (yorn 50 ⟨41, 41⟩
          (prepareLetters 50 defaultFlags.letters defaultFlags.group
            (runStart defaultFlags (sampleWorld [0x79, 0x61, 0x1B]))).world).world)).world
      (sendGroup defaultFlags.group (str "qngwjh?i42m=vt76bxf1/zo.pe38aul90s,c5yrkd") 1
        (letterLoop defaultFlags.group (str "qngwjh?i42m=vt76bxf1/zo.pe38aul90s,c5yrkd")
          [(0, 0x71)]
          (roundStart (yorn 50 ⟨41, 41⟩
            (prepareLetters 50 defaultFlags.letters defaultFlags.group
              (runStart defaultFlags
                (sampleWorld [0x79, 0x61, 0x1B]))).world).world)).world).world
      (str "qngwjh?i42m=vt76bxf1/zo.pe38aul90s,c5yrkd") [(0, 0x71)]
      ((rangeString (str "qngwjh?i42m=vt76bxf1/zo.pe38aul90s,c5yrkd")).drop 2) 1 0x6E 0x1B []
      (by decide) rfl rfl rfl (by decide) rfl rfl rfl).2.1 (by decide)).2.2.2⟩

/-! ## The player calls of a round -/

theorem playerCalls_append (a b : List Event) :
    playerCalls (a ++ b) = playerCalls a ++ playerCalls b := by
  simp [playerCalls, List.filterMap_append]

theorem playerCalls_recordEvents (clock : Nat → Nat) (n i tx rx pos : Nat) :
    playerCalls (recordEvents clock n i tx rx pos) = [] := by
  simp only [recordEvents, playerCalls]
  split <;> rfl

theorem playerCalls_groupEvents {g : Nat} (t : GoString) {i : Nat}
    (hi : i % g = 0) : playerCalls (groupEvents g t i) = groupCalls g t (i / g) := by
  have e : i / g * g = i := Nat.div_mul_cancel (Nat.dvd_of_mod_eq_zero hi)
  simp only [groupEvents, groupCalls, groupLetters, playerCalls, List.filterMap_append,
    List.filterMap_map, List.map_map, e]
  simp only [Event.playerCall, Function.comp_def, List.filterMap_cons, List.filterMap_nil,
    List.cons_append, List.nil_append]
  rw [show (fun x => some (PlayerCall.rune (t.getD (i + x) 0))) =
    some ∘ (fun x => PlayerCall.rune (t.getD (i + x) 0)) from rfl, List.filterMap_eq_map]

theorem playerCalls_preEvents {g : Nat} (t : GoString) (i : Nat) :
    playerCalls (preEvents g t i) = if i % g = 0 then groupCalls g t (i / g) else [] := by
  rw [preEvents]
  split
  · next h => exact playerCalls_groupEvents t h
  · rfl

theorem flatMap_range_succ {β : Type} (f : Nat → List β) (m : Nat) :
    (List.range (m + 1)).flatMap f = f 0 ++ (List.range m).flatMap (fun j => f (j + 1)) := by
  rw [List.range_succ_eq_map, List.flatMap_cons, List.flatMap_map]

theorem letterLoop_complete {g : Nat} (hg : 1 ≤ g) {t : GoString} (hlen : t.length % g = 0) :
    ∀ (l : List Nat) (i0 : Nat) (w : World) (resp rest : List Nat),
      i0 + l.length = t.length → w.stdin = resp ++ rest → resp.length = l.length →
      (∀ b ∈ resp, keeps b = true) →
      ∃ (w1 : World) (es : List Event),
        letterLoop (g : Int) t (l.enumFrom i0) w = .ok .next w1 ∧ w1.stdin = rest ∧
        w1.trace = w.trace ++ es ∧
        playerCalls es =
          (List.range l.length).flatMap (fun j => playerCalls (preEvents g t (i0 + j))) := by
  intro l
  induction l with
  | nil =>
    intro i0 w resp rest _ hs hr _
    have : resp = [] := List.length_eq_zero.mp hr
    subst this
    exact ⟨w, [], rfl, by simpa using hs, by simp, rfl⟩
  | cons c l ih =>
    intro i0 w resp rest hi hs hr hk
    cases resp with
    | nil => simp at hr
    | cons b resp =>
      have hb : isExit (unicodeToLower b) = false := by
        have := hk b (List.mem_cons_self _ _)
        simpa [keeps] using this
      have hfit : i0 % g = 0 → i0 + g ≤ t.length :=
        fun h0 => group_fits hlen h0 (by simp at hi; omega)
      have hbody := letterBody_eq hg hfit c w
      rw [hs] at hbody
      simp only [List.cons_append, hb] at hbody
      have hi1 : i0 + 1 + l.length = t.length := by
        rw [List.length_cons] at hi; omega
      obtain ⟨w1, es, e1, e2, e3, e4⟩ := ih (i0 + 1)
        { w with
          stdin := resp ++ rest
          trace := w.trace ++ preEvents g t i0 ++
            .termRead b :: recordEvents w.clock t.length i0 c (unicodeToLower b)
              (w.trace.length + (preEvents g t i0).length) }
        resp rest hi1 rfl (by simpa using hr)
        (fun x hx => hk x (List.mem_cons_of_mem _ hx))
      refine ⟨w1, preEvents g t i0 ++ .termRead b :: recordEvents w.clock t.length i0 c
        (unicodeToLower b) (w.trace.length + (preEvents g t i0).length) ++ es, ?_, e2, ?_, ?_⟩
      · rw [List.enumFrom_cons, letterLoop, hbody]
        exact e1
      · rw [e3]
        simp
      · rw [List.length_cons, flatMap_range_succ, playerCalls_append, playerCalls_append, e4]
        have : playerCalls (Event.termRead b :: recordEvents w.clock t.length i0 c
            (unicodeToLower b) (w.trace.length + (preEvents g t i0).length)) = [] := by
          have := playerCalls_recordEvents w.clock t.length i0 c (unicodeToLower b)
            (w.trace.length + (preEvents g t i0).length)
          simpa [playerCalls, Event.playerCall] using this
        rw [this]
        simp only [List.append_nil, Nat.add_zero]
        congr 1
        apply List.flatMap_congr
        intro j _
        rw [Nat.add_assoc, Nat.add_comm 1 j]

theorem flatMap_first_only {β : Type} (X : List β) {g : Nat} (hg : 1 ≤ g) :
    (List.range g).flatMap (fun p => if p = 0 then X else []) = X := by
  obtain ⟨m, rfl⟩ : ∃ m, g = m + 1 := ⟨g - 1, by omega⟩
  rw [flatMap_range_succ]
  simp

theorem regroup {β : Type} (F : Nat → List β) {g : Nat} (hg : 1 ≤ g) : ∀ q : Nat,
    (List.range (q * g)).flatMap (fun i => if i % g = 0 then F (i / g) else []) =
      (List.range q).flatMap F := by
  intro q
  induction q with
  | zero => simp
  | succ q ih =>
    rw [Nat.succ_mul, List.range_add, List.flatMap_append, ih, List.range_succ,
      List.flatMap_append, List.flatMap_map]
    congr 1
    simp only [List.flatMap_cons, List.flatMap_nil, List.append_nil]
    rw [← flatMap_first_only (F q) hg]
    apply List.flatMap_congr
    intro p hp
    have hp2 : p < g := List.mem_range.mp hp
    have e1 : (q * g + p) % g = p := by
      rw [Nat.mul_comm, Nat.mul_add_mod]
      exact Nat.mod_eq_of_lt hp2
    have e2 : (q * g + p) / g = q := by
      rw [Nat.mul_comm, Nat.mul_add_div (by omega), Nat.div_eq_of_lt hp2]
      rfl
    rw [e1, e2]

theorem flatMap_groupLetters (g : Nat) (t : GoString) : ∀ q : Nat,
    (List.range q).flatMap (groupLetters g t) = (List.range (q * g)).map (fun i => t.getD i 0) := by
  intro q
  induction q with
  | zero => simp
  | succ q ih =>
    rw [List.range_succ, List.flatMap_append, ih, Nat.succ_mul, List.range_add,
      List.map_append, List.map_map]
    simp [groupLetters, Function.comp_def]

theorem map_getD_range (t : GoString) : (List.range t.length).map (fun i => t.getD i 0) = t := by
  apply List.ext_getElem
  · simp
  · intro i h1 h2
    simp [List.getElem?_eq_getElem h2]

theorem foldl_runes (consume : Bool) : ∀ (l q : List Nat) (out : List (List Nat)),
    (l.map PlayerCall.rune).foldl (playerStep consume) (q, out) = (q ++ l, out) := by
  intro l
  induction l with
  | nil => intro q out; simp
  | cons a l ih =>
    intro q out
    rw [List.map_cons, List.foldl_cons]
    simp only [playerStep]
    rw [ih]
    simp

theorem foldl_groups (consume : Bool) (g : Nat) (t : GoString) :
    ∀ (ks : List Nat) (q : List Nat) (out : List (List Nat)),
      ((ks.flatMap (groupCalls g t)).foldl (playerStep consume) (q, out)).2 =
        out ++ ks.map (fun k => 0x20 :: groupLetters g t k) := by
  intro ks
  induction ks with
  | nil => intro q out; simp
  | cons k ks ih =>
    intro q out
    rw [List.flatMap_cons, List.foldl_append, groupCalls, List.foldl_append,
      List.foldl_append]
    simp only [List.foldl_cons, List.foldl_nil, playerStep]
    rw [foldl_runes]
    simp only [playerStep]
    rw [ih]
    simp

/-- C2: for a non-empty ASCII letter set and a group size `g ≥ 1`, the letters `t`
of a round are prepared, and an accepted round that gets a response for every
letter, none an exit character, runs to its end making exactly the player calls
`roundCalls g t`: Reset, String(" vvv   "), SyncPlay, then per group Reset, Clear,
Rune(' '), the group's `g` letters and SyncPlay. The groups' letters are `t` in
order, every group has `g` letters, and each SyncPlay plays only what was queued
since the Reset before it, whether or not the player's SyncPlay empties the
queue. -/
theorem round_player_calls (letters : GoString) (g n : Nat) (w0 : World)
    (hl : letters ≠ []) (ha : IsASCII letters) (hg : 1 ≤ g) (hn : 50 ≤ n) (hng : g ≤ n) :
    ∃ (t : GoString) (d : Nat),
      prepareLetters n letters (g : Int) w0 = .ok t { w0 with drawn := d } ∧
      ∀ (w : World) (resp rest : List Nat), w.stdin = resp ++ rest →
        resp.length = t.length → (∀ b ∈ resp, keeps b = true) →
        ∃ (w1 : World) (es : List Event),
          playRound (g : Int) t w = .ok .next w1 ∧ w1.stdin = rest ∧
          w1.trace = w.trace ++ es ∧
          playerCalls es = roundCalls g t ∧
          (List.range (t.length / g)).flatMap (groupLetters g t) = t ∧
          (∀ k, (groupLetters g t k).length = g) ∧
          ∀ consume : Bool, played consume (roundCalls g t) =
            toRunes (str " vvv   ") ::
              (List.range (t.length / g)).map (fun k => 0x20 :: groupLetters g t k) := by
  obtain ⟨t, d, hprep, hta, htlen, -⟩ := prepareLetters_spec hl ha hg hn hng w0
  refine ⟨t, d, hprep, ?_⟩
  intro w resp rest hs hr hk
  have hq : t.length / g * g = t.length := Nat.div_mul_cancel (Nat.dvd_of_mod_eq_zero htlen)
  obtain ⟨w1, es, e1, e2, e3, e4⟩ := letterLoop_complete hg htlen t 0
    (emit (.newStats .round) (emit .cwSyncPlay (emit (.cwString (str " vvv   "))
      (emit .cwReset w)))) resp rest (by simp) hs hr hk
  refine ⟨w1, [.cwReset, .cwString (str " vvv   "), .cwSyncPlay, .newStats .round] ++ es,
    ?_, e2, ?_, ?_, ?_, ?_, ?_⟩
  · rw [playRound, rangeString_ascii hta]
    exact e1
  · rw [e3]
    simp [emit]
  · rw [playerCalls_append, e4, roundCalls]
    have h1 : playerCalls [.cwReset, .cwString (str " vvv   "), .cwSyncPlay,
        .newStats .round] = [.reset, .string (str " vvv   "), .syncPlay] := rfl
    rw [h1]
    congr 1
    have h2 := regroup (groupCalls g t) hg (t.length / g)
    rw [hq] at h2
    rw [← h2]
    apply List.flatMap_congr
    intro j _
    rw [Nat.zero_add, playerCalls_preEvents]
  · rw [flatMap_groupLetters, hq, map_getD_range]
  · intro k
    simp [groupLetters]
  · intro consume
    rw [played, roundCalls, List.foldl_append]
    simp only [List.foldl_cons, List.foldl_nil, playerStep, List.nil_append]
    rw [foldl_groups]
    simp

/-- C2, at a concrete input: the letter set `abc` in groups of two. -/
theorem round_player_calls_witness :
    (str "abc" ≠ [] ∧ IsASCII (str "abc") ∧ 1 ≤ 2 ∧ 50 ≤ 50 ∧ 2 ≤ 50) ∧
    ∃ (t : GoString) (d : Nat),
      prepareLetters 50 (str "abc") ((2 : Nat) : Int) (sampleWorld []) =
        .ok t { sampleWorld [] with drawn := d } ∧
      ∀ (w : World) (resp rest : List Nat), w.stdin = resp ++ rest →
        resp.length = t.length → (∀ b ∈ resp, keeps b = true) →
        ∃ (w1 : World) (es : List Event),
          playRound ((2 : Nat) : Int) t w = .ok .next w1 ∧ w1.stdin = rest ∧
          w1.trace = w.trace ++ es ∧
          playerCalls es = roundCalls 2 t ∧
          (List.range (t.length / 2)).flatMap (groupLetters 2 t) = t ∧
          (∀ k, (groupLetters 2 t k).length = 2) ∧
          ∀ consume : Bool, played consume (roundCalls 2 t) =
            toRunes (str " vvv   ") ::
              (List.range (t.length / 2)).map (fun k => 0x20 :: groupLetters 2 t k) :=
  ⟨⟨by decide, by decide, by decide, by decide, by decide⟩,
    round_player_calls (str "abc") 2 50 (sampleWorld []) (by decide) (by decide) (by decide)
      (by decide) (by decide)⟩

/-! ## The timing of the records -/

theorem auditFrom_append (s : AuditState) (a b : List Event) :
    auditFrom s (a ++ b) =
      ((auditFrom (auditFrom s a).1 b).1, (auditFrom s a).2 ++ (auditFrom (auditFrom s a).1 b).2) := by
  induction a generalizing s with
  | nil => simp [auditFrom]
  | cons e a ih => simp [auditFrom, ih, List.append_assoc]

theorem auditFrom_pos (s : AuditState) (es : List Event) :
    (auditFrom s es).1.pos = s.pos + es.length := by
  induction es generalizing s with
  | nil => rfl
  | cons e es ih =>
    rw [auditFrom]
    simp only [ih, List.length_cons]
    cases e <;> simp only [auditStep] <;> omega

theorem auditFrom_runes (f : Nat → Nat) : ∀ (l : List Nat) (s : AuditState),
    auditFrom s (l.map (fun p => Event.cwRune (f p))) =
      ({ s with pos := s.pos + l.length }, []) := by
  intro l
  induction l with
  | nil => intro s; rfl
  | cons a l ih =>
    intro s
    rw [List.map_cons, auditFrom, ih]
    simp only [auditStep, List.length_cons, List.append_nil, Prod.mk.injEq, and_true,
      AuditState.mk.injEq, true_and]
    omega

theorem auditFrom_groupEvents (g : Nat) (t : GoString) (i : Nat) (s : AuditState) :
    auditFrom s (groupEvents g t i) =
      (⟨s.pos + (g + 4), s.pos + (g + 4), 0, s.readEnd⟩, []) := by
  rw [groupEvents, auditFrom_append, auditFrom_append, auditFrom_runes]
  simp only [auditFrom, auditStep, List.length_range, List.append_nil, Prod.mk.injEq,
    and_true, AuditState.mk.injEq, true_and]
  omega

theorem groupEvents_length (g : Nat) (t : GoString) (i : Nat) :
    (groupEvents g t i).length = g + 4 := by
  simp [groupEvents]

theorem auditFrom_records (clock : Nat → Nat) (n i tx rx pos b : Nat) (s : AuditState) :
    auditFrom s (Event.termRead b :: recordEvents clock n i tx rx pos) =
      (⟨s.pos + 6, s.playEnd, s.reads + 1, s.pos + 1⟩,
        [⟨s.playEnd, s.reads + 1, s.pos + 1, (clock (pos + 1) : Int) - clock pos⟩]) := by
  simp only [recordEvents, auditFrom]
  split <;> simp [auditStep]

theorem auditFrom_preEvents (g : Nat) (t : GoString) (i : Nat) (s : AuditState) :
    auditFrom s (preEvents g t i) =
      (if i % g = 0 then ⟨s.pos + (g + 4), s.pos + (g + 4), 0, s.readEnd⟩ else s, []) := by
  rw [preEvents]
  split
  · exact auditFrom_groupEvents g t i s
  · rfl

theorem preEvents_length (g : Nat) (t : GoString) (i : Nat) :
    (preEvents g t i).length = if i % g = 0 then g + 4 else 0 := by
  rw [preEvents]
  split
  · exact groupEvents_length g t i
  · rfl

theorem recordEvents_length (clock : Nat → Nat) (n i tx rx pos : Nat) :
    (recordEvents clock n i tx rx pos).length = 5 := rfl

theorem audit_letter {g : Nat} (hg : 1 ≤ g) (t : GoString) (i : Nat) (s : AuditState)
    (clock : Nat → Nat) (n tx rx b L : Nat) (hpos : s.pos = L)
    (hinv : i % g ≠ 0 → s.reads = i % g ∧ s.pos = s.playEnd + 6 * (i % g)) :
    ∃ (s1 : AuditState) (x : Timing),
      auditFrom s (preEvents g t i ++
        .termRead b :: recordEvents clock n i tx rx (L + (preEvents g t i).length)) =
          (s1, [x]) ∧
      s1.pos = L + (preEvents g t i).length + 6 ∧
      ((i + 1) % g ≠ 0 →
        s1.reads = (i + 1) % g ∧ s1.pos = s1.playEnd + 6 * ((i + 1) % g)) ∧
      TimedOverRead clock g i x := by
  have hsm := succ_mod_eq hg i
  rw [auditFrom_append, auditFrom_preEvents, auditFrom_records, preEvents_length]
  subst hpos
  by_cases h0 : i % g = 0
  · simp only [if_pos h0, List.nil_append]
    refine ⟨_, _, rfl, ?_, ?_, ?_⟩
    · dsimp only
    · intro hne
      rw [hsm, h0] at hne ⊢
      dsimp only
      split at hne
      · exact absurd rfl hne
      · next h1 => rw [if_neg h1]; omega
    · unfold TimedOverRead
      rw [h0]
      dsimp only
      refine ⟨?_, by omega, by omega⟩
      simp
  · obtain ⟨hr1, hr2⟩ := hinv h0
    simp only [if_neg h0, List.nil_append, Nat.add_zero]
    refine ⟨_, _, rfl, ?_, ?_, ?_⟩
    · dsimp only
    · intro hne
      rw [hsm] at hne ⊢
      dsimp only
      split at hne
      · exact absurd rfl hne
      · next h1 => rw [if_neg h1]; omega
    · unfold TimedOverRead
      dsimp only
      refine ⟨?_, by omega, by omega⟩
      simp

theorem letterLoop_audit {g : Nat} (hg : 1 ≤ g) {t : GoString} (hlen : t.length % g = 0) :
    ∀ (l : List Nat) (i0 : Nat) (w : World) (s : AuditState),
      i0 + l.length = t.length → s.pos = w.trace.length →
      (i0 % g ≠ 0 → s.reads = i0 % g ∧ s.pos = s.playEnd + 6 * (i0 % g)) →
      ∃ es : List Event,
        (letterLoop (g : Int) t (l.enumFrom i0) w).world.trace = w.trace ++ es ∧
        ((auditFrom s es).2).length = min l.length (w.stdin.takeWhile keeps).length ∧
        ∀ (j : Nat) (x : Timing), (auditFrom s es).2[j]? = some x →
          TimedOverRead w.clock g (i0 + j) x := by
  intro l
  induction l with
  | nil =>
    intro i0 w s _ _ _
    exact ⟨[], by simp [letterLoop, Res.world], by simp [auditFrom], by simp [auditFrom]⟩
  | cons c l ih =>
    intro i0 w s hi hpos hinv
    have hi1 : i0 + 1 + l.length = t.length := by
      rw [List.length_cons] at hi; omega
    have hfit : i0 % g = 0 → i0 + g ≤ t.length :=
      fun h0 => group_fits hlen h0 (by omega)
    have hbody := letterBody_eq hg hfit c w
    have hpre := auditFrom_preEvents g t i0 s
    cases hs : w.stdin with
    | nil =>
      rw [hs] at hbody
      refine ⟨preEvents g t i0 ++ [.logFatal], ?_, ?_, ?_⟩
      · rw [List.enumFrom_cons, letterLoop, hbody]
        simp [Res.world]
      · rw [auditFrom_append, hpre]
        simp [auditFrom, auditStep]
      · rw [auditFrom_append, hpre]
        simp [auditFrom, auditStep]
    | cons b rest =>
      rw [hs] at hbody
      simp only at hbody
      by_cases hx : isExit (unicodeToLower b) = true
      · rw [if_pos hx] at hbody
        refine ⟨preEvents g t i0 ++ [.termRead b], ?_, ?_, ?_⟩
        · rw [List.enumFrom_cons, letterLoop, hbody]
          simp [Res.world]
        · rw [auditFrom_append, hpre]
          simp [auditFrom, auditStep, List.takeWhile_cons, keeps, hx]
        · rw [auditFrom_append, hpre]
          simp [auditFrom, auditStep]
      · rw [if_neg hx] at hbody
        obtain ⟨s1, x, hE, hs1, hinv1, hgood⟩ := audit_letter hg t i0 s w.clock t.length c
          (unicodeToLower b) b w.trace.length hpos hinv
        obtain ⟨es, e1, e2, e3⟩ := ih (i0 + 1)
          { w with
            stdin := rest
            trace := w.trace ++ preEvents g t i0 ++
              .termRead b :: recordEvents w.clock t.length i0 c (unicodeToLower b)
                (w.trace.length + (preEvents g t i0).length) }
          s1 hi1
          (by
            rw [hs1]
            simp only [List.length_append, List.length_cons, recordEvents_length])
          hinv1
        refine ⟨preEvents g t i0 ++
          .termRead b :: recordEvents w.clock t.length i0 c (unicodeToLower b)
            (w.trace.length + (preEvents g t i0).length) ++ es, ?_, ?_, ?_⟩
        · rw [List.enumFrom_cons, letterLoop, hbody]
          simp only
          rw [e1]
          simp
        · rw [auditFrom_append, hE]
          have hk : keeps b = true := by simp [keeps, hx]
          simp only [List.length_append, List.length_cons, List.length_nil, e2,
            List.takeWhile_cons, hk, if_true]
          omega
        · intro j y hj
          rw [auditFrom_append, hE] at hj
          cases j with
          | zero =>
            simp only [List.cons_append, List.nil_append, List.getElem?_cons_zero,
              Option.some.injEq] at hj
            subst hj
            exact hgood
          | succ j =>
            simp only [List.cons_append, List.nil_append, List.getElem?_cons_succ] at hj
            have := e3 j y hj
            rw [Nat.add_assoc, Nat.add_comm 1 j] at this
            exact this

theorem rangeFrom_lt : ∀ (n i : Nat) (s : GoString) (p : Nat × Nat),
    p ∈ rangeFrom n i s → p.1 < i + s.length := by
  intro n
  induction n with
  | zero => intro i s p h; simp [rangeFrom] at h
  | succ n ih =>
    intro i s p h
    cases s with
    | nil => simp [rangeFrom] at h
    | cons b r =>
      simp only [rangeFrom, List.mem_cons] at h
      rcases h with h | h
      · rw [h]
        simp
      · have h1 := ih _ _ _ h
        by_cases hd : (decodeRune (b :: r)).2 ≤ (b :: r).length
        · rw [List.length_drop] at h1
          omega
        · rw [List.drop_eq_nil_of_le (by omega)] at h
          cases n <;> simp [rangeFrom] at h

theorem rangeString_lt {t : GoString} {p : Nat × Nat} (h : p ∈ rangeString t) :
    p.1 < t.length := by
  have := rangeFrom_lt t.length 0 t p h
  omega

theorem rangeString_head (t : GoString) (i tx : Nat) (rest : List (Nat × Nat))
    (h : rangeString t = (i, tx) :: rest) : i = 0 := by
  rw [rangeString] at h
  cases t with
  | nil => simp [rangeFrom] at h
  | cons b r =>
    simp only [List.length_cons, rangeFrom, List.cons.injEq, Prod.mk.injEq] at h
    exact h.1.1.symm

theorem audit_letter_own {g : Nat} (t : GoString) (i : Nat) (s : AuditState)
    (clock : Nat → Nat) (n tx rx b L : Nat) (hpos : s.pos = L)
    (hinv : i % g ≠ 0 → 1 ≤ s.reads ∧ s.pos = s.playEnd + 6 * s.reads) :
    ∃ (s1 : AuditState) (x : Timing),
      auditFrom s (preEvents g t i ++
        .termRead b :: recordEvents clock n i tx rx (L + (preEvents g t i).length)) =
          (s1, [x]) ∧
      s1.pos = L + (preEvents g t i).length + 6 ∧
      (1 ≤ s1.reads ∧ s1.pos = s1.playEnd + 6 * s1.reads) ∧
      TimedOwnRead clock g i x := by
  rw [auditFrom_append, auditFrom_preEvents, auditFrom_records, preEvents_length]
  subst hpos
  by_cases h0 : i % g = 0
  · simp only [if_pos h0, List.nil_append]
    refine ⟨_, _, rfl, ?_, ?_, ?_⟩
    · dsimp only
    · dsimp only
      omega
    · unfold TimedOwnRead
      dsimp only
      refine ⟨?_, by omega, by omega, ?_⟩
      · simp
      · simp [h0]
  · obtain ⟨hr1, hr2⟩ := hinv h0
    simp only [if_neg h0, List.nil_append, Nat.add_zero]
    refine ⟨_, _, rfl, ?_, ?_, ?_⟩
    · dsimp only
    · dsimp only
      omega
    · unfold TimedOwnRead
      dsimp only
      refine ⟨?_, by omega, by omega, ?_⟩
      · simp
      · constructor
        · intro h; exact absurd h h0
        · intro h; omega

theorem letterLoop_audit_own {g : Nat} (hg : 1 ≤ g) {t : GoString} :
    ∀ (ps : List (Nat × Nat)) (w : World) (s : AuditState),
      (∀ p ∈ ps, p.1 % g = 0 → p.1 + g ≤ t.length) → s.pos = w.trace.length →
      (∀ i tx rest, ps = (i, tx) :: rest → i % g ≠ 0 →
        1 ≤ s.reads ∧ s.pos = s.playEnd + 6 * s.reads) →
      ∃ es : List Event,
        (letterLoop (g : Int) t ps w).world.trace = w.trace ++ es ∧
        ((auditFrom s es).2).length = min ps.length (w.stdin.takeWhile keeps).length ∧
        ∀ (k : Nat) (x : Timing) (p : Nat × Nat), (auditFrom s es).2[k]? = some x →
          ps[k]? = some p → TimedOwnRead w.clock g p.1 x := by
  intro ps
  induction ps with
  | nil =>
    intro w s _ _ _
    exact ⟨[], by simp [letterLoop, Res.world], by simp [auditFrom], by simp [auditFrom]⟩
  | cons q ps ih =>
    intro w s hfits hpos hinv
    obtain ⟨i0, c⟩ := q
    have hfit : i0 % g = 0 → i0 + g ≤ t.length := hfits (i0, c) (List.mem_cons_self _ _)
    have hbody := letterBody_eq hg hfit c w
    have hpre := auditFrom_preEvents g t i0 s
    cases hs : w.stdin with
    | nil =>
      rw [hs] at hbody
      refine ⟨preEvents g t i0 ++ [.logFatal], ?_, ?_, ?_⟩
      · rw [letterLoop, hbody]
        simp [Res.world]
      · rw [auditFrom_append, hpre]
        simp [auditFrom, auditStep]
      · rw [auditFrom_append, hpre]
        simp [auditFrom, auditStep]
    | cons b rest =>
      rw [hs] at hbody
      simp only at hbody
      by_cases hx : isExit (unicodeToLower b) = true
      · rw [if_pos hx] at hbody
        refine ⟨preEvents g t i0 ++ [.termRead b], ?_, ?_, ?_⟩
        · rw [letterLoop, hbody]
          simp [Res.world]
        · rw [auditFrom_append, hpre]
          simp [auditFrom, auditStep, List.takeWhile_cons, keeps, hx]
        · rw [auditFrom_append, hpre]
          simp [auditFrom, auditStep]
      · rw [if_neg hx] at hbody
        obtain ⟨s1, x, hE, hs1, hinv1, hgood⟩ := audit_letter_own t i0 s w.clock t.length c
          (unicodeToLower b) b w.trace.length hpos (hinv i0 c ps rfl)
        obtain ⟨es, e1, e2, e3⟩ := ih
          { w with
            stdin := rest
            trace := w.trace ++ preEvents g t i0 ++
              .termRead b :: recordEvents w.clock t.length i0 c (unicodeToLower b)
                (w.trace.length + (preEvents g t i0).length) }
          s1 (fun p hp => hfits p (List.mem_cons_of_mem _ hp))
          (by
            rw [hs1]
            simp only [List.length_append, List.length_cons, recordEvents_length])
          (fun _ _ _ _ _ => hinv1)
        refine ⟨preEvents g t i0 ++
          .termRead b :: recordEvents w.clock t.length i0 c (unicodeToLower b)
            (w.trace.length + (preEvents g t i0).length) ++ es, ?_, ?_, ?_⟩
        · rw [letterLoop, hbody]
          simp only
          rw [e1]
          simp
        · rw [auditFrom_append, hE]
          have hk : keeps b = true := by simp [keeps, hx]
          simp only [List.length_append, List.length_cons, List.length_nil, e2,
            List.takeWhile_cons, hk, if_true]
          omega
        · intro k y p hk hp
          rw [auditFrom_append, hE] at hk
          cases k with
          | zero =>
            simp only [List.cons_append, List.nil_append, List.getElem?_cons_zero,
              Option.some.injEq] at hk hp
            subst hk
            subst hp
            exact hgood
          | succ k =>
            simp only [List.cons_append, List.nil_append, List.getElem?_cons_succ] at hk hp
            exact e3 k y p hk hp

/-- C1 (amended): for a group size `g ≥ 1` and any letters `t` of a round (their
length is a multiple of `g` whenever `prepareLetters` returns them), the records
the round adds to the CSV log, whatever is typed, are one per answered letter.
The record of the letter at loop index `i` carries the time its own read took:
from the timestamp `finishedPlaying`, taken when the read begins, to the return
of the read. When `i` is a multiple of `g` the iteration has just sent a group:
the read is the first since that `SyncPlay` and the letter is timed from its
return. Otherwise the timestamp follows the previous letter's record: with `r`
reads since the latest `SyncPlay`, this one included, `r ≥ 2` and that `SyncPlay`
returned `6 * (r - 1)` effects before the timestamp. For ASCII letters the letter
at index `i` has `r = i % g + 1`. -/
theorem reaction_time_over_read (g : Nat) (t : GoString) (w : World) (hg : 1 ≤ g)
    (hlen : t.length % g = 0) :
    (∀ (n : Nat) (letters t1 : GoString) (w0 w1 : World),
      prepareLetters n letters (g : Int) w0 = .ok t1 w1 → t1.length % g = 0) ∧
    ∃ A : List Timing,
      audit (playRound (g : Int) t w).world.trace = audit w.trace ++ A ∧
      A.length = min (rangeString t).length (w.stdin.takeWhile keeps).length ∧
      (∀ (k : Nat) (x : Timing) (i tx : Nat), A[k]? = some x →
        (rangeString t)[k]? = some (i, tx) →
          x.reactionTime = (w.clock x.readEnd : Int) - w.clock (x.readEnd - 1) ∧
          1 ≤ x.readsSincePlay ∧
          x.readEnd = x.playEnd + 6 * (x.readsSincePlay - 1) + 1 ∧
          (i % g = 0 ↔ x.readsSincePlay = 1) ∧
          (i % g = 0 → TimedFromPlayback w.clock x)) ∧
      (IsASCII t → ∀ (i : Nat) (x : Timing), A[i]? = some x →
        x.readsSincePlay = i % g + 1 ∧ x.readEnd = x.playEnd + 6 * (i % g) + 1) := by
  refine ⟨?_, ?_⟩
  · intro n letters t1 w0 w1 h
    exact (tmod_natCast_eq_zero _ _).mp (prepareLetters_ok h).2
  have hpos := auditFrom_pos ⟨0, 0, 0, 0⟩ w.trace
  have hposw : (⟨(auditFrom ⟨0, 0, 0, 0⟩ w.trace).1.pos + 4,
      (auditFrom ⟨0, 0, 0, 0⟩ w.trace).1.pos + 3, 0,
      (auditFrom ⟨0, 0, 0, 0⟩ w.trace).1.readEnd⟩ : AuditState).pos =
      (roundStart w).trace.length := by
    simp only [hpos, roundStart, emit, List.length_append, List.length_cons, List.length_nil]
    omega
  obtain ⟨es, e1, e2, e3⟩ := letterLoop_audit_own hg (t := t) (rangeString t) (roundStart w)
    ⟨(auditFrom ⟨0, 0, 0, 0⟩ w.trace).1.pos + 4, (auditFrom ⟨0, 0, 0, 0⟩ w.trace).1.pos + 3, 0,
      (auditFrom ⟨0, 0, 0, 0⟩ w.trace).1.readEnd⟩
    (fun p hp h0 => group_fits hlen h0 (rangeString_lt hp))
    hposw
    (by
      intro i tx rest h hne
      rw [rangeString_head t i tx rest h] at hne
      exact absurd (Nat.zero_mod g) hne)
  have htr : (playRound (g : Int) t w).world.trace =
      w.trace ++ ([.cwReset, .cwString (str " vvv   "), .cwSyncPlay, .newStats .round] ++ es) := by
    have : playRound (g : Int) t w = letterLoop (g : Int) t (rangeString t) (roundStart w) := rfl
    rw [this, e1]
    simp [roundStart, emit]
  refine ⟨(auditFrom ⟨(auditFrom ⟨0, 0, 0, 0⟩ w.trace).1.pos + 4,
    (auditFrom ⟨0, 0, 0, 0⟩ w.trace).1.pos + 3, 0,
    (auditFrom ⟨0, 0, 0, 0⟩ w.trace).1.readEnd⟩ es).2, ?_, ?_, ?_, ?_⟩
  · rw [htr, audit, auditFrom_append, auditFrom_append]
    simp [audit, auditFrom, auditStep]
  · simpa [roundStart, emit] using e2
  · intro k x i tx hx hp
    have h : TimedOwnRead w.clock g i x := e3 k x (i, tx) hx hp
    obtain ⟨h1, h2, h3, h4⟩ := h
    refine ⟨h1, h2, h3, h4, ?_⟩
    intro h0
    have h5 := h4.mp h0
    rw [h5] at h3
    refine ⟨?_, h5⟩
    rw [h1, h3]
    simp
  · intro hta i x hx
    obtain ⟨es2, f1, -, f3⟩ := letterLoop_audit hg hlen t 0 (roundStart w)
      ⟨(auditFrom ⟨0, 0, 0, 0⟩ w.trace).1.pos + 4, (auditFrom ⟨0, 0, 0, 0⟩ w.trace).1.pos + 3,
        0, (auditFrom ⟨0, 0, 0, 0⟩ w.trace).1.readEnd⟩
      (by simp) hposw (by intro h; exact absurd (Nat.zero_mod g) h)
    rw [← rangeString_ascii hta, e1] at f1
    have hes : es = es2 := List.append_cancel_left f1
    rw [hes] at hx
    have h : TimedOverRead w.clock g (0 + i) x := f3 i x hx
    rw [Nat.zero_add] at h
    exact ⟨h.2.1, h.2.2⟩

/-- C1, at a concrete input: two letters in one group of two. -/
theorem reaction_time_over_read_witness :
    (1 ≤ 2 ∧ (str "ab").length % 2 = 0) ∧
    ∃ A : List Timing,
      audit (playRound ((2 : Nat) : Int) (str "ab") (sampleWorld [0x61, 0x62])).world.trace =
        audit (sampleWorld [0x61, 0x62]).trace ++ A ∧
      A.length = min (rangeString (str "ab")).length
        ((sampleWorld [0x61, 0x62]).stdin.takeWhile keeps).length ∧
      (∀ (k : Nat) (x : Timing) (i tx : Nat), A[k]? = some x →
        (rangeString (str "ab"))[k]? = some (i, tx) →
          x.reactionTime = ((sampleWorld [0x61, 0x62]).clock x.readEnd : Int) -
            (sampleWorld [0x61, 0x62]).clock (x.readEnd - 1) ∧
          1 ≤ x.readsSincePlay ∧
          x.readEnd = x.playEnd + 6 * (x.readsSincePlay - 1) + 1 ∧
          (i % 2 = 0 ↔ x.readsSincePlay = 1) ∧
          (i % 2 = 0 → TimedFromPlayback (sampleWorld [0x61, 0x62]).clock x)) ∧
      (IsASCII (str "ab") → ∀ (i : Nat) (x : Timing), A[i]? = some x →
        x.readsSincePlay = i % 2 + 1 ∧ x.readEnd = x.playEnd + 6 * (i % 2) + 1) :=
  ⟨⟨by decide, by decide⟩,
    (reaction_time_over_read 2 (str "ab") (sampleWorld [0x61, 0x62]) (by decide)
      (by decide)).2⟩

set_option maxRecDepth 1000000 in
/-- C1 fails as stated. Run with the default letters in groups of two, on a clock
where every effect takes one millisecond; `y`, `a`, `b` and ESC are typed. `run`
returns nil after two records. The `SyncPlay` that played both letters returned
at position 16. The second record's read returned at position 23, 7 ms later, and
was the second read since that `SyncPlay`; the recorded reaction time is 1 ms. -/
theorem reaction_time_not_from_playback :
    (run 50 { defaultFlags with group := 2 } none
      (sampleWorld [0x79, 0x61, 0x62, 0x1B])).1 = .returned none ∧
    audit (run 50 { defaultFlags with group := 2 } none
      (sampleWorld [0x79, 0x61, 0x62, 0x1B])).2.trace =
        [⟨16, 1, 17, 1000000⟩, ⟨16, 2, 23, 1000000⟩] ∧
    ((sampleWorld []).clock 23 : Int) - (sampleWorld []).clock 16 = 7000000 ∧
    ¬ ∀ x ∈ audit (run 50 { defaultFlags with group := 2 } none
      (sampleWorld [0x79, 0x61, 0x62, 0x1B])).2.trace,
        TimedFromPlayback (sampleWorld []).clock x := by
  decide

end NcwTester
